import Mathlib

set_option maxHeartbeats 1000000

/-
Verification development for the MeMS user-space memory allocator
(src/mems.h).  The C program is shallowly embedded: the circular main
chain is represented by the list of main nodes reachable forward from
the sentinel (`head_main->next` order), together with an explicit model
of the sentinel's `prev` pointer (which the code does not keep in sync
with the forward chain after `mems_finish`).  Sub-chains are lists in
`next` order; the `prev` pointers of sub nodes are modelled by a
three-valued field (`null`, points to itself, points to the positional
predecessor), which is exactly the information the C code reads from
them.  Machine pointers are natural numbers; the page provider (mmap)
is modelled as a deterministic counter handing out fresh disjoint
bases.  C `int` fields are modelled as unbounded `Int` together with
the implementation-defined conversions at the exact places the source
casts (`(int)size` narrows modulo 2^32 into the signed range; an `int`
read where a `size_t` is expected is reduced modulo 2^64).
-/

def PAGE_SIZE : Nat := 4096

def START_VIRTUAL_ADDRESS : Nat := 1000

/-- Segment kind: `#define HOLE 0`, `#define PROCESS 1`. -/
inductive SegType where
  | HOLE
  | PROCESS
deriving DecidableEq, Repr

/-- Model of a sub node's `prev` pointer.  In the C code a sub node's
`prev` either is the null pointer, points to the node itself (the code
creates each region's first sub node with `new_sub_node->prev =
new_sub_node`), or points to the node's predecessor in the sub-chain.
These three cases are all the code ever inspects (`prev != NULL`,
`prev != current`, `prev->type`). -/
inductive PrevLink where
  | null
  | self
  | toPrev
deriving DecidableEq, Repr

/-- `struct sub_node` (mems.h:41-50).  `next` is represented
positionally by the enclosing list; `size` is a C `int`. -/
structure sub_node where
  type : SegType
  size : Int
  p_addr : Nat
  v_addr_start : Nat
  v_addr_end : Nat
  prev : PrevLink
deriving DecidableEq, Repr

/-- `struct main_node` (mems.h:30-39).  `sub_head` holds the sub-chain
in `next` order; `next`/`prev` of real main nodes are positional. -/
structure main_node where
  num_of_pages : Nat
  p_addr : Nat
  v_addr_start : Nat
  v_addr_end : Nat
  sub_head : List sub_node
deriving DecidableEq, Repr

/-- Where the sentinel's `prev` pointer points: at the sentinel itself
(`mems_init` self-links it), at the last node of the forward chain
(the normal case while allocations exist), or at a main node that is
no longer reachable from `head_main->next` (this happens after
`mems_finish`, which resets `next` but not `prev`; only that node's
`v_addr_end` is ever read afterwards). -/
inductive HeadPrev where
  | sentinel
  | lastNode
  | detached (vEnd : Nat)
deriving DecidableEq, Repr

/-- Global state of the allocator: the main chain reachable forward
from the sentinel, the sentinel's `prev` pointer, the page provider's
next fresh base, the log of acquired regions (base, bytes), and the
global `start_virtual_address` cursor (written by `mems_malloc`, never
read back). -/
structure State where
  chain : List main_node
  head_prev : HeadPrev
  physCtr : Nat
  acquired : List (Nat × Nat)
  start_virtual_address : Nat
deriving DecidableEq, Repr

/-- C conversion `(int)size` of a `size_t` value: reduce modulo 2^32
and interpret in the signed 32-bit range (mems.h:222,232,279,292). -/
def intOfSizeT (s : Nat) : Int :=
  if s % 2 ^ 32 < 2 ^ 31 then ((s % 2 ^ 32 : Nat) : Int)
  else ((s % 2 ^ 32 : Nat) : Int) - 2 ^ 32

/-- C conversion of an `int` value used where a `size_t` is expected
(the comparisons `current_sub_node->size >= size` and `> size` at
mems.h:213,215 promote the `int` field to `size_t`). -/
def sizeTofInt (x : Int) : Nat := (x % 2 ^ 64).toNat

/-- Pointer plus signed offset (`void*` arithmetic with an `int`
operand, mems.h:295).  Exact for all in-range states. -/
def ptrAddInt (p : Nat) (i : Int) : Nat := ((p : Int) + i).toNat

/-- The `v_addr_end` computed for a process segment from the full
width `size_t` request: `v_addr_start + size - 1` (mems.h:233,282). -/
def procVEnd (vs size : Nat) : Nat := vs + size - 1

/-- Write `PrevLink.toPrev` into a node: models storing a pointer to
the node's (new) positional predecessor into its `prev` field. -/
def setPL (n : sub_node) : sub_node := { n with prev := PrevLink.toPrev }

/-- Apply such a `prev` write to the first node of a suffix of the
chain (`current_sub_node->next->prev = ...`, mems.h:229). -/
def setHeadPL : List sub_node → List sub_node
  | [] => []
  | x :: rest => setPL x :: rest

/-- `mems_init` (mems.h:135-145): empty chain, self-linked sentinel,
virtual space starting at 1000.  The provider counter starts at an
arbitrary nonzero page-aligned base. -/
def mems_init : State :=
  { chain := []
    head_prev := HeadPrev.sentinel
    physCtr := 2 ^ 20
    acquired := []
    start_virtual_address := START_VIRTUAL_ADDRESS }

/-- First-fit scan of one sub-chain (mems.h:211-241): find the first
`HOLE` whose (promoted) size is at least `size`; split it if strictly
larger (insert the residual hole right after, mems.h:216-233), flip it
to `PROCESS`, and return its `v_addr_start` plus the updated chain. -/
def scanSubs (size : Nat) : List sub_node → Option (Nat × List sub_node)
  | [] => none
  | cur :: rest =>
    if cur.type = SegType.HOLE ∧ size ≤ sizeTofInt cur.size then
      if size < sizeTofInt cur.size then
        some (cur.v_addr_start,
          { cur with type := SegType.PROCESS, size := intOfSizeT size,
                     v_addr_end := procVEnd cur.v_addr_start size }
            :: { type := SegType.HOLE
                 size := cur.size - intOfSizeT size
                 p_addr := cur.p_addr + size
                 v_addr_start := cur.v_addr_start + size
                 v_addr_end := cur.v_addr_end
                 prev := PrevLink.toPrev }
            :: setHeadPL rest)
      else
        some (cur.v_addr_start, { cur with type := SegType.PROCESS } :: rest)
    else
      (scanSubs size rest).map (fun r => (r.1, cur :: r.2))

/-- First-fit scan over the main chain (mems.h:207-243), forward from
the sentinel's `next`. -/
def scanMains (size : Nat) : List main_node → Option (Nat × List main_node)
  | [] => none
  | m :: ms =>
    match scanSubs size m.sub_head with
    | some r => some (r.1, { m with sub_head := r.2 } :: ms)
    | none => (scanMains size ms).map (fun r => (r.1, m :: r.2))

/-- The `v_addr_end` of the node the sentinel's `prev` points at; the
sentinel itself carries `v_addr_end = START_VIRTUAL_ADDRESS - 1`
(mems.h:144). -/
def headPrevVEnd (s : State) : Nat :=
  match s.head_prev with
  | HeadPrev.sentinel => START_VIRTUAL_ADDRESS - 1
  | HeadPrev.lastNode =>
      ((s.chain.getLast?).map main_node.v_addr_end).getD (START_VIRTUAL_ADDRESS - 1)
  | HeadPrev.detached e => e

/-- `mems_malloc` (mems.h:198-302).  Size 0 yields the null handle.
Otherwise first-fit over existing holes; if none fits, acquire
`ceil(size / PAGE_SIZE)` pages (the C computes this through `double`
arithmetic, which is exact in the defined range) and append a region
one byte past `head_main->prev->v_addr_end`, installing a `PROCESS`
sub node of the requested length and, if the region is larger, a
trailing `HOLE`.  The grow path links the new node after
`head_main->prev`; when that pointer is stale (after `mems_finish`)
the new node is not reachable from `head_main->next`, which the model
reproduces by leaving `chain` unchanged in the `detached` case. -/
def mems_malloc (s : State) (size : Nat) : Nat × State :=
  if size = 0 then (0, s)
  else
    match scanMains size s.chain with
    | some r => (r.1, { s with chain := r.2 })
    | none =>
      let num_of_pages := (size + PAGE_SIZE - 1) / PAGE_SIZE
      let bytes := num_of_pages * PAGE_SIZE
      let p_addr := s.physCtr
      let vs := headPrevVEnd s + 1
      let newSub : sub_node :=
        { type := SegType.PROCESS
          size := intOfSizeT size
          p_addr := p_addr
          v_addr_start := vs
          v_addr_end := procVEnd vs size
          prev := PrevLink.self }
      let holeSize : Int := (bytes : Int) - intOfSizeT size
      let subs : List sub_node :=
        if size ≠ bytes then
          [newSub,
           { type := SegType.HOLE
             size := holeSize
             p_addr := p_addr + size
             v_addr_start := vs + size
             v_addr_end := ptrAddInt (vs + size) (holeSize - 1)
             prev := PrevLink.toPrev }]
        else [newSub]
      let newMain : main_node :=
        { num_of_pages := num_of_pages
          p_addr := p_addr
          v_addr_start := vs
          v_addr_end := vs + bytes - 1
          sub_head := subs }
      let s' : State :=
        { s with physCtr := s.physCtr + bytes
                 acquired := s.acquired ++ [(p_addr, bytes)]
                 start_virtual_address := s.start_virtual_address + size }
      match s.head_prev with
      | HeadPrev.detached _ =>
          (vs, { s' with head_prev := HeadPrev.detached (vs + bytes - 1) })
      | _ =>
          (vs, { s' with chain := s.chain ++ [newMain]
                         head_prev := HeadPrev.lastNode })

/-- Inner scan of `mems_get` over one sub-chain (mems.h:370-376): the
containment test is `v_ptr >= v_addr_start && v_ptr < v_addr_end &&
type == PROCESS`. -/
def getScanSubs (p : Nat) : List sub_node → Option Nat
  | [] => none
  | x :: rest =>
    if x.v_addr_start ≤ p ∧ p < x.v_addr_end ∧ x.type = SegType.PROCESS then
      some (x.p_addr + (p - x.v_addr_start))
    else getScanSubs p rest

/-- Outer scan of `mems_get` over the main chain (mems.h:367-378). -/
def getScanMains (p : Nat) : List main_node → Option Nat
  | [] => none
  | m :: ms =>
    match getScanSubs p m.sub_head with
    | some r => some r
    | none => getScanMains p ms

/-- `mems_get` (mems.h:365-381): translate a MeMS virtual address to a
machine address, 0 (the null pointer) when no scan hit occurs. -/
def mems_get (s : State) (p : Nat) : Nat := (getScanMains p s.chain).getD 0

/-- The backward-merge guard of `merge_holes` (mems.h:406): `prev !=
NULL && prev->type == HOLE && prev != current`, where `prev` resolves
to the positional predecessor exactly when the field is `toPrev`. -/
def backOK : List sub_node → sub_node → Bool
  | prev :: _, cur => decide (prev.type = SegType.HOLE ∧ cur.prev = PrevLink.toPrev)
  | [], _ => false

/-- The backward merge of `merge_holes` (mems.h:406-413): absorb `cur`
into its predecessor when the guard holds, otherwise commit `cur`. -/
def backMerge : List sub_node → sub_node → List sub_node
  | prev :: acc', cur =>
    if prev.type = SegType.HOLE ∧ cur.prev = PrevLink.toPrev then
      { prev with size := prev.size + cur.size, v_addr_end := cur.v_addr_end } :: acc'
    else cur :: prev :: acc'
  | [], cur => [cur]

/-- One full traversal of `merge_holes` over a sub-chain
(mems.h:392-416).  `acc` holds the already visited prefix in reverse;
`fix` records a pending `->prev` write into the next node (the code
reassigns `next->prev` when it unlinks a node, mems.h:401-403 and
410-412), which the model applies when that node is visited.  At each
hole the code absorbs at most one forward `HOLE` neighbour and then at
most one backward `HOLE` neighbour. -/
def mhAux : Nat → List sub_node → Bool → List sub_node → List sub_node
  | 0, acc, _, rest => acc.reverse ++ rest
  | _ + 1, acc, _, [] => acc.reverse
  | fuel + 1, acc, fix, cur0 :: rest =>
    let cur := if fix then setPL cur0 else cur0
    if cur.type = SegType.HOLE then
      match rest with
      | nxt :: rest' =>
        if nxt.type = SegType.HOLE then
          mhAux fuel (backMerge acc
            { cur with size := cur.size + nxt.size, v_addr_end := nxt.v_addr_end }) true rest'
        else
          mhAux fuel (backMerge acc cur) (backOK acc cur) rest
      | [] => (backMerge acc cur).reverse
    else
      mhAux fuel (cur :: acc) false rest

/-- `merge_holes` restricted to one sub-chain.  The loop visits each
sub node at most once (each step consumes at least the current node),
so the list's length bounds the number of iterations; the fuel is only
a termination device and never runs out. -/
def mergeHolesSubs (l : List sub_node) : List sub_node := mhAux l.length [] false l

/-- `merge_holes` (mems.h:389-420): traverse every main node and merge
adjacent holes within each sub-chain. -/
def merge_holes (ms : List main_node) : List main_node :=
  ms.map (fun m => { m with sub_head := mergeHolesSubs m.sub_head })

/-- Scan of `mems_free` over one sub-chain (mems.h:427-439): the first
node with `v_ptr == v_addr_start && type == PROCESS` is flipped to
`HOLE`. -/
def freeScanSubs (p : Nat) : List sub_node → Option (List sub_node)
  | [] => none
  | x :: rest =>
    if x.v_addr_start = p ∧ x.type = SegType.PROCESS then
      some ({ x with type := SegType.HOLE } :: rest)
    else (freeScanSubs p rest).map (fun l => x :: l)

/-- Scan of `mems_free` over the main chain (mems.h:424-441). -/
def freeScanMains (p : Nat) : List main_node → Option (List main_node)
  | [] => none
  | m :: ms =>
    match freeScanSubs p m.sub_head with
    | some l => some ({ m with sub_head := l } :: ms)
    | none => (freeScanMains p ms).map (fun r => m :: r)

/-- `mems_free` (mems.h:422-445): flip the matching `PROCESS` node to
`HOLE` and run `merge_holes` over the whole structure; when no node
matches, the state is untouched. -/
def mems_free (s : State) (p : Nat) : State :=
  match freeScanMains p s.chain with
  | some chain' => { s with chain := merge_holes chain' }
  | none => s

/-- `mems_finish` (mems.h:152-185): walk the chain from the sentinel's
`next`, releasing each region (`munmap(p_addr, num_of_pages *
PAGE_SIZE)`), then reset the sentinel's `next` — but not its `prev` —
to itself.  Returns the list of released regions (base, bytes) next to
the new state; a previously forward-linked `prev` pointer becomes
detached. -/
def mems_finish (s : State) : List (Nat × Nat) × State :=
  (s.chain.map (fun m => (m.p_addr, m.num_of_pages * PAGE_SIZE)),
   { s with
      chain := []
      head_prev :=
        match s.head_prev with
        | HeadPrev.sentinel => HeadPrev.sentinel
        | HeadPrev.lastNode =>
            match s.chain.getLast? with
            | some m => HeadPrev.detached m.v_addr_end
            | none => HeadPrev.sentinel
        | HeadPrev.detached e => HeadPrev.detached e })

/-- One segment of the stats line (mems.h:330-335): `H[vs:ve] <-> ` or
`P[vs:ve] <-> `. -/
def segStr (x : sub_node) : String :=
  (if x.type = SegType.HOLE then "H[" else "P[")
    ++ toString x.v_addr_start ++ ":" ++ toString x.v_addr_end ++ "] <-> "

/-- Concatenation of the segment strings of a sub-chain, in traversal
order. -/
def subsStr : List sub_node → String
  | [] => ""
  | x :: rest => segStr x ++ subsStr rest

/-- The per-region lines of `mems_print_stats` (mems.h:323-340). -/
def mainsStr : List main_node → String
  | [] => ""
  | m :: ms =>
    "MAIN[" ++ toString m.v_addr_start ++ ":" ++ toString m.v_addr_end ++ "]-> "
      ++ subsStr m.sub_head ++ "NULL\n" ++ mainsStr ms

/-- `total_used_pages` as accumulated by the print loop (mems.h:324). -/
def pagesSum : List main_node → Nat
  | [] => 0
  | m :: ms => m.num_of_pages + pagesSum ms

/-- `total_unused_size` as accumulated by the print loop (mems.h:332). -/
def unusedSum : List main_node → Int
  | [] => 0
  | m :: ms => subUnused m.sub_head + unusedSum ms
where
  subUnused : List sub_node → Int
    | [] => 0
    | x :: rest => (if x.type = SegType.HOLE then x.size else 0) + subUnused rest

/-- The trailing per-region sub-chain length list (mems.h:344-357). -/
def subLenStr : List main_node → String
  | [] => ""
  | m :: ms => toString m.sub_head.length ++ ", " ++ subLenStr ms

/-- `mems_print_stats` (mems.h:313-358), modelled as the exact text
written to standard output. -/
def mems_print_stats (s : State) : String :=
  if s.chain = [] then "No memory allocated\n"
  else
    mainsStr s.chain
      ++ "Total used pages: " ++ toString (pagesSum s.chain) ++ "\n"
      ++ "Total unused size: " ++ toString (unusedSum s.chain) ++ "\n"
      ++ "Main chain length: " ++ toString s.chain.length ++ "\n"
      ++ "Sub chain length array: [" ++ subLenStr s.chain ++ "]\n"

/- Invariant vocabulary -/

/-- Two adjacent sub nodes are not both holes. -/
def noHolePair (a b : sub_node) : Prop :=
  ¬(a.type = SegType.HOLE ∧ b.type = SegType.HOLE)

/-- Coalescing invariant I5 for one sub-chain: no two adjacent
sub nodes are both holes. -/
def noAdjH : List sub_node → Prop
  | [] => True
  | [_] => True
  | a :: b :: rest => noHolePair a b ∧ noAdjH (b :: rest)

/-- Coalescing invariant I5 for a whole state. -/
def noAdjInv (s : State) : Prop := ∀ m ∈ s.chain, noAdjH m.sub_head

/-- The first node of a sub-chain has a self `prev` pointer (set by
the grow path, mems.h:284). -/
def headPL (l : List sub_node) : Prop := ∀ x ∈ l.take 1, x.prev = PrevLink.self

/-- Every non-initial node's `prev` pointer points to its positional
predecessor. -/
def tailPL (l : List sub_node) : Prop := ∀ x ∈ l.tail, x.prev = PrevLink.toPrev

/-- Shape of all sub-chain `prev` pointers in a state. -/
def plInv (s : State) : Prop := ∀ m ∈ s.chain, headPL m.sub_head ∧ tailPL m.sub_head

/-- No sub node in the state is a `PROCESS` starting at `p`. -/
def noProcStart (p : Nat) (s : State) : Prop :=
  ∀ m ∈ s.chain, ∀ x ∈ m.sub_head, ¬(x.v_addr_start = p ∧ x.type = SegType.PROCESS)

/-- The address `p` lies inside no `PROCESS` segment, with inclusive
bounds on both sides. -/
def noProcContains (p : Nat) (s : State) : Prop :=
  ∀ m ∈ s.chain, ∀ x ∈ m.sub_head,
    ¬(x.type = SegType.PROCESS ∧ x.v_addr_start ≤ p ∧ p ≤ x.v_addr_end)

/-- No sub node of the list is a hole that the first-fit test of
`mems_malloc` (mems.h:213) accepts for a request of `size` bytes. -/
def noFitSub (size : Nat) (l : List sub_node) : Prop :=
  ∀ x ∈ l, ¬(x.type = SegType.HOLE ∧ size ≤ sizeTofInt x.size)

/-- No sub node of any listed main node fits a request of `size`. -/
def noFitMain (size : Nat) (ms : List main_node) : Prop :=
  ∀ m ∈ ms, noFitSub size m.sub_head

/-- States reachable by the public interface from `mems_init`
(`mems_get` and `mems_print_stats` do not modify the state, so they
need no constructor). -/
inductive Reachable : State → Prop where
  | init : Reachable mems_init
  | malloc (s : State) (sz : Nat) : Reachable s → Reachable (mems_malloc s sz).2
  | free (s : State) (p : Nat) : Reachable s → Reachable (mems_free s p)
  | finish (s : State) : Reachable s → Reachable (mems_finish s).2

/- Concrete runs used by several claims. -/

/-- State after `mems_init(); mems_malloc(1000)`. -/
def stA : State := (mems_malloc mems_init 1000).2

/-- State after `mems_init(); mems_malloc(1000); mems_malloc(500)`. -/
def stB : State := (mems_malloc stA 500).2

/-- State after additionally freeing the first handle (1000). -/
def stC : State := mems_free stB 1000

/-- State after additionally freeing the second handle (2000). -/
def stD : State := mems_free stC 2000

/-- State after `mems_init(); mems_malloc(1); mems_malloc(1)`. -/
def stE : State := (mems_malloc (mems_malloc mems_init 1).2 1).2

/- Decidability of the invariant vocabulary (kernel-reducible, so that
concrete states can be checked by `decide`). -/

instance : DecidableRel noHolePair := fun a b =>
  inferInstanceAs (Decidable (¬(a.type = SegType.HOLE ∧ b.type = SegType.HOLE)))

instance instDecNoAdjH : (l : List sub_node) → Decidable (noAdjH l)
  | [] => isTrue trivial
  | [_] => isTrue trivial
  | a :: b :: rest =>
    haveI : Decidable (noAdjH (b :: rest)) := instDecNoAdjH (b :: rest)
    inferInstanceAs (Decidable (noHolePair a b ∧ noAdjH (b :: rest)))

instance (s : State) : Decidable (noAdjInv s) :=
  inferInstanceAs (Decidable (∀ m ∈ s.chain, noAdjH m.sub_head))

instance (l : List sub_node) : Decidable (headPL l) :=
  inferInstanceAs (Decidable (∀ x ∈ l.take 1, x.prev = PrevLink.self))

instance (l : List sub_node) : Decidable (tailPL l) :=
  inferInstanceAs (Decidable (∀ x ∈ l.tail, x.prev = PrevLink.toPrev))

instance (s : State) : Decidable (plInv s) :=
  inferInstanceAs (Decidable (∀ m ∈ s.chain, headPL m.sub_head ∧ tailPL m.sub_head))

instance (p : Nat) (s : State) : Decidable (noProcStart p s) :=
  inferInstanceAs (Decidable (∀ m ∈ s.chain, ∀ x ∈ m.sub_head,
    ¬(x.v_addr_start = p ∧ x.type = SegType.PROCESS)))

instance (p : Nat) (s : State) : Decidable (noProcContains p s) :=
  inferInstanceAs (Decidable (∀ m ∈ s.chain, ∀ x ∈ m.sub_head,
    ¬(x.type = SegType.PROCESS ∧ x.v_addr_start ≤ p ∧ p ≤ x.v_addr_end)))

instance (n : Nat) (l : List sub_node) : Decidable (noFitSub n l) :=
  inferInstanceAs (Decidable (∀ x ∈ l, ¬(x.type = SegType.HOLE ∧ n ≤ sizeTofInt x.size)))

instance (n : Nat) (ms : List main_node) : Decidable (noFitMain n ms) :=
  inferInstanceAs (Decidable (∀ m ∈ ms, noFitSub n m.sub_head))

/- Claim C1.  The code's containment test in `mems_get` is
`v_ptr >= v_addr_start && v_ptr < v_addr_end` (mems.h:372), which
excludes the segment's last byte `v_addr_end`, whereas the claim (and
the specification) mandates the closed interval. -/

/-- C1 (code_bug evaluation): after `init; h = malloc(1000)` the block
is the `PROCESS` segment `[1000, 1999]`, interior bytes translate to
base + offset (`translate(h+17) = base+17`, `translate(h+998) =
base+998`), but the last byte `h + 999 = 1999` — in bounds under the
claim's closed interval — translates to the null pointer because the
code compares with `<  v_addr_end`. -/
theorem c1_last_byte_not_translated :
    (mems_malloc mems_init 1000).1 = 1000 ∧
    stA.chain.map (fun m => m.sub_head.map (fun x => (x.type, x.v_addr_start, x.v_addr_end)))
      = [[(SegType.PROCESS, 1000, 1999), (SegType.HOLE, 2000, 5095)]] ∧
    mems_get stA 1017 = 2 ^ 20 + 17 ∧
    mems_get stA 1998 = 2 ^ 20 + 998 ∧
    mems_get stA 1999 = 0 := by decide

/- Claim C2.  `mems_finish` resets only the sentinel's `next`
(mems.h:168); its `prev` keeps pointing at the old last main node, so
the next `mems_malloc` continues the virtual address space one byte
past the released region instead of restarting at 1000 (and links the
new region where the sentinel's forward chain never reaches it). -/

/-- C2 (code_bug evaluation): in the run `init; malloc(1); malloc(1)`
the second request is served from the first region's hole, so exactly
one region exists; `finish` releases exactly the acquired regions
(matching base and byte count), but leaves the sentinel's `prev`
pointing at the stale node with `v_addr_end = 5095`; a fresh `malloc(1)`
after `finish` therefore returns handle 5096, not the base virtual
address 1000. -/
theorem c2_finish_keeps_stale_prev :
    (mems_finish stE).1 = stE.acquired ∧
    stE.acquired = [(2 ^ 20, 4096)] ∧
    stE.chain.map (fun m => (m.p_addr, m.num_of_pages)) = [(2 ^ 20, 1)] ∧
    (mems_finish stE).2.chain = [] ∧
    (mems_finish stE).2.head_prev = HeadPrev.detached 5095 ∧
    (mems_malloc (mems_finish stE).2 1).1 = 5096 := by decide

/- Claim C10.  The recording casts `(int)size` (mems.h:222,232,279,292)
are exact precisely below 2^31; but the `v_addr_end` of the process
segment is computed from the full-width `size_t` request
(mems.h:233,282), so it equals `v_addr_start + size - 1` even at and
above 2^31, contradicting the claim's inclusion of `v_addr_end` among
the narrowed quantities. -/

/-- C10 counterexample: at the request size 2^31 the process segment's
`v_addr_end` as computed by the code (`v_addr_start + size - 1`, full
`size_t` width) still equals the requested value, although the claim
asserts this holds only for requests below 2^31; the stored `int` size
does wrap there. -/
theorem c10_counterexample :
    ¬ ((2 ^ 31 : Nat) < 2 ^ 31) ∧
    procVEnd 2000 (2 ^ 31) = 2000 + 2 ^ 31 - 1 ∧
    intOfSizeT (2 ^ 31) ≠ ((2 ^ 31 : Nat) : Int) := by decide

/-- C10 (amended): the recorded segment size and the residual-hole
size pass through the narrowing conversion `(int)size`, which is the
identity exactly for requests below 2^31 (above, the stored value
wraps modulo 2^32 interpreted as signed); `v_addr_end` is computed
from the full-width `size_t` and is not narrowed. -/
theorem c10_narrowing_exact_iff (s : Nat) (hs : s < 2 ^ 64) :
    intOfSizeT s = (s : Int) ↔ s < 2 ^ 31 := by
  unfold intOfSizeT
  split <;> omega

/-- Witness for `c10_narrowing_exact_iff` at the in-range request 1000. -/
theorem c10_narrowing_witness :
    (1000 : Nat) < 2 ^ 64 ∧ (intOfSizeT 1000 = (1000 : Int) ↔ (1000 : Nat) < 2 ^ 31) :=
  ⟨by decide, c10_narrowing_exact_iff 1000 (by decide)⟩

/- Claim C7: caller-input errors never mutate state. -/

/-- Helper: the free scan finds nothing when no listed node is a
`PROCESS` starting at `p`. -/
theorem freeScanSubs_eq_none (p : Nat) (l : List sub_node)
    (h : ∀ x ∈ l, ¬(x.v_addr_start = p ∧ x.type = SegType.PROCESS)) :
    freeScanSubs p l = none := by
  induction l with
  | nil => rfl
  | cons x rest ih =>
    have hx := h x (by simp)
    simp only [freeScanSubs, if_neg hx, ih (fun y hy => h y (by simp [hy]))]
    rfl

/-- Helper: the free scan over the main chain finds nothing when no
node in any sub-chain is a `PROCESS` starting at `p`. -/
theorem freeScanMains_eq_none (p : Nat) (ms : List main_node)
    (h : ∀ m ∈ ms, ∀ x ∈ m.sub_head, ¬(x.v_addr_start = p ∧ x.type = SegType.PROCESS)) :
    freeScanMains p ms = none := by
  induction ms with
  | nil => rfl
  | cons m rest ih =>
    simp only [freeScanMains, freeScanSubs_eq_none p m.sub_head (h m (by simp)),
      ih (fun m' hm' => h m' (by simp [hm']))]
    rfl

/-- Helper: the translate scan of one sub-chain misses when `p` is
inside no `PROCESS` segment (with inclusive bounds). -/
theorem getScanSubs_eq_none (p : Nat) (l : List sub_node)
    (h : ∀ x ∈ l, ¬(x.type = SegType.PROCESS ∧ x.v_addr_start ≤ p ∧ p ≤ x.v_addr_end)) :
    getScanSubs p l = none := by
  induction l with
  | nil => rfl
  | cons x rest ih =>
    have hx : ¬(x.v_addr_start ≤ p ∧ p < x.v_addr_end ∧ x.type = SegType.PROCESS) := by
      intro hc
      exact h x (by simp) ⟨hc.2.2, hc.1, Nat.le_of_lt hc.2.1⟩
    simp only [getScanSubs, if_neg hx, ih (fun y hy => h y (by simp [hy]))]

/-- Helper: the translate scan over the main chain misses likewise. -/
theorem getScanMains_eq_none (p : Nat) (ms : List main_node)
    (h : ∀ m ∈ ms, ∀ x ∈ m.sub_head,
      ¬(x.type = SegType.PROCESS ∧ x.v_addr_start ≤ p ∧ p ≤ x.v_addr_end)) :
    getScanMains p ms = none := by
  induction ms with
  | nil => rfl
  | cons m rest ih =>
    simp only [getScanMains, getScanSubs_eq_none p m.sub_head (h m (by simp)),
      ih (fun m' hm' => h m' (by simp [hm']))]

/-- C7: caller-input errors leave the allocator state unchanged and
yield only a sentinel result: `malloc(0)` returns the null handle with
the state untouched; `free(p)` for a handle `p` that is not the exact
`v_addr_start` of a `PROCESS` segment is a no-op on the state; and
`translate(q)` for an address `q` inside no `PROCESS` segment (with
inclusive bounds) returns the null pointer. -/
theorem c7_caller_errors_no_mutation (s : State) (p q : Nat)
    (hp : noProcStart p s) (hq : noProcContains q s) :
    mems_malloc s 0 = (0, s) ∧ mems_free s p = s ∧ mems_get s q = 0 := by
  refine ⟨by simp [mems_malloc], ?_, ?_⟩
  · unfold mems_free
    rw [freeScanMains_eq_none p s.chain hp]
  · unfold mems_get
    rw [getScanMains_eq_none q s.chain hq]
    rfl

/-- Witness for `c7_caller_errors_no_mutation` in the state after
`init; malloc(1000)` with the invalid handle 9999 (the spec's scenario
4 input), which starts no `PROCESS` segment and lies in no segment. -/
theorem c7_witness :
    mems_malloc stA 0 = (0, stA) ∧ mems_free stA 9999 = stA ∧ mems_get stA 9999 = 0 :=
  c7_caller_errors_no_mutation stA 9999 9999 (by decide) (by decide)

/- Claim C3: the exact text of `mems_print_stats`. -/

/-- Segment tag as the amended format describes it: `H[vs:ve]` or
`P[vs:ve]` (the code prints no size annotation). -/
def segTag (x : sub_node) : String :=
  (if x.type = SegType.HOLE then "H[" else "P[")
    ++ toString x.v_addr_start ++ ":" ++ toString x.v_addr_end ++ "]"

/-- Segments joined by ` <-> ` and terminated by `NULL`, as the
amended format describes the region line. -/
def joinSegs : List String → String
  | [] => "NULL"
  | t :: rest => t ++ " <-> " ++ joinSegs rest

/-- Plain concatenation of a list of strings. -/
def concatStrs : List String → String
  | [] => ""
  | t :: rest => t ++ concatStrs rest

/-- Rendering of the statistics output as described by the amended
claim: one line `MAIN[vs:ve]-> ` per region with its segments joined
by ` <-> ` and ending in `NULL`, then the lines `Total used pages:`,
`Total unused size:`, `Main chain length:` and `Sub chain length
array: [...]`; the empty chain prints `No memory allocated` alone. -/
def statsRender (s : State) : String :=
  if s.chain = [] then "No memory allocated\n"
  else
    concatStrs (s.chain.map (fun m =>
        "MAIN[" ++ toString m.v_addr_start ++ ":" ++ toString m.v_addr_end ++ "]-> "
          ++ joinSegs (m.sub_head.map segTag) ++ "\n"))
      ++ "Total used pages: " ++ toString (s.chain.map main_node.num_of_pages).sum ++ "\n"
      ++ "Total unused size: "
      ++ toString (s.chain.map (fun m =>
          ((m.sub_head.filter (fun x => x.type = SegType.HOLE)).map sub_node.size).sum)).sum
      ++ "\n"
      ++ "Main chain length: " ++ toString s.chain.length ++ "\n"
      ++ "Sub chain length array: ["
      ++ concatStrs (s.chain.map (fun m => toString m.sub_head.length ++ ", ")) ++ "]\n"

/-- Helper: one printed segment is its tag followed by the separator. -/
theorem segStr_eq (x : sub_node) : segStr x = segTag x ++ " <-> " := by
  unfold segStr segTag
  simp [String.append_assoc]

/-- Helper: the printed sub-chain followed by `NULL` is the segments
joined by the separator. -/
theorem subsStr_join (l : List sub_node) :
    subsStr l ++ "NULL" = joinSegs (l.map segTag) := by
  induction l with
  | nil => decide
  | cons x rest ih => simp [subsStr, joinSegs, segStr_eq, String.append_assoc, ← ih]

/-- Helper: `subsStr_join` with an arbitrary continuation. -/
theorem subsStr_join' (l : List sub_node) (t : String) :
    subsStr l ++ ("NULL" ++ t) = joinSegs (l.map segTag) ++ t := by
  rw [← String.append_assoc, subsStr_join]

/-- Helper: the per-region lines agree with the joined rendering. -/
theorem mainsStr_eq (l : List main_node) :
    mainsStr l = concatStrs (l.map (fun m =>
      "MAIN[" ++ toString m.v_addr_start ++ ":" ++ toString m.v_addr_end ++ "]-> "
        ++ joinSegs (m.sub_head.map segTag) ++ "\n")) := by
  induction l with
  | nil => rfl
  | cons m rest ih =>
    simp only [mainsStr, concatStrs, List.map_cons, ih, String.append_assoc]
    rw [show ("NULL\n" : String) = "NULL" ++ "\n" from by decide, String.append_assoc,
      subsStr_join']

/-- Helper: the pages accumulator is the sum of the page counts. -/
theorem pagesSum_eq (l : List main_node) :
    pagesSum l = (l.map main_node.num_of_pages).sum := by
  induction l with
  | nil => rfl
  | cons m rest ih => simp [pagesSum, ih]

/-- Helper: the per-chain unused accumulator is the sum of the hole
sizes. -/
theorem subUnused_eq (l : List sub_node) :
    unusedSum.subUnused l
      = ((l.filter (fun x => x.type = SegType.HOLE)).map sub_node.size).sum := by
  induction l with
  | nil => rfl
  | cons x rest ih =>
    by_cases hx : x.type = SegType.HOLE <;>
      simp [unusedSum.subUnused, List.filter_cons, hx, ih]

/-- Helper: the unused accumulator is the double sum of hole sizes. -/
theorem unusedSum_eq (l : List main_node) :
    unusedSum l = (l.map (fun m =>
      ((m.sub_head.filter (fun x => x.type = SegType.HOLE)).map sub_node.size).sum)).sum := by
  induction l with
  | nil => rfl
  | cons m rest ih => simp [unusedSum, subUnused_eq, ih]

/-- Helper: the sub-chain length list agrees. -/
theorem subLenStr_eq (l : List main_node) :
    subLenStr l = concatStrs (l.map (fun m => toString m.sub_head.length ++ ", ")) := by
  induction l with
  | nil => rfl
  | cons m rest ih => simp [subLenStr, concatStrs, ih]

/-- C3 counterexample: on the empty chain the code prints
`No memory allocated` (with a newline), not the claimed
`MeMS Status: No pages allocated.`; and in the one-region state after
`init; malloc(1000)` it prints `Total used pages:` / `Total unused
size:` labels, segments without size annotations, and an extra
`Sub chain length array:` line, none of which match the claimed text. -/
theorem c3_counterexample :
    mems_print_stats mems_init = "No memory allocated\n" ∧
    mems_print_stats mems_init ≠ "MeMS Status: No pages allocated." ∧
    mems_print_stats stA
      = "MAIN[1000:5095]-> P[1000:1999] <-> H[2000:5095] <-> NULL\nTotal used pages: 1\nTotal unused size: 3096\nMain chain length: 1\nSub chain length array: [2, ]\n" := by
  decide

/-- C3 (amended): for every state, `mems_print_stats` writes exactly
one line `MAIN[<vs>:<ve>]-> ` per region followed by `H[<vs>:<ve>]` or
`P[<vs>:<ve>]` segments (no size annotation) joined by ` <-> ` and
ending in `NULL`, then the four summary lines `Total used pages: <n>`,
`Total unused size: <n>`, `Main chain length: <n>`, and
`Sub chain length array: [<l1>, <l2>, ... ]`; when no region exists it
emits `No memory allocated` and nothing else. -/
theorem c3_print_stats_format (s : State) : mems_print_stats s = statsRender s := by
  unfold mems_print_stats statsRender
  by_cases h : s.chain = []
  · simp [h]
  · simp only [if_neg h]
    rw [mainsStr_eq, pagesSum_eq, unusedSum_eq, subLenStr_eq]

/- Claims C8 and C9: concrete refutations. -/

/-- C8 counterexample (the specification's own scenario 3): after
`init; a = malloc(1000); b = malloc(500); free(a); free(b)`, the
handle `b = 2000` was returned by `malloc(500)` and freed, but the
backward coalescing of `merge_holes` absorbed its segment into the
preceding hole: the only remaining sub node is `H[1000:5095]` of size
4096, and no sub node with `v_addr_start = 2000` exists, contrary to
the claim's demand for one. -/
theorem c8_counterexample :
    (mems_malloc stA 500).1 = 2000 ∧
    stD.chain.map (fun m => m.sub_head.map (fun x => (x.type, x.v_addr_start, x.v_addr_end, x.size)))
      = [[(SegType.HOLE, 1000, 5095, (4096 : Int))]] ∧
    (∀ m ∈ stD.chain, ∀ x ∈ m.sub_head, x.v_addr_start ≠ 2000) := by decide

/-- C9 counterexample: after `init; malloc(1000)` the first sub node's
`prev` pointer is a pointer to the node itself (mems.h:284 sets
`new_sub_node->prev = new_sub_node`), not the null pointer required by
the claim. -/
theorem c9_counterexample :
    stA.chain.map (fun m => m.sub_head.map sub_node.prev)
      = [[PrevLink.self, PrevLink.toPrev]] ∧
    PrevLink.self ≠ PrevLink.null := by decide

/- Claims C4 and C5: first-fit split and the grow path. -/

/-- Helper: an in-range `int` promoted to `size_t` is its value. -/
theorem sizeTofInt_of_range (x : Int) (h0 : 0 ≤ x) (h1 : x < 2 ^ 31) :
    sizeTofInt x = x.toNat := by
  unfold sizeTofInt
  rw [Int.emod_eq_of_lt h0 (by omega)]

/-- Helper: the narrowing cast is the identity below 2^31. -/
theorem intOfSizeT_of_lt (s : Nat) (h : s < 2 ^ 31) : intOfSizeT s = (s : Int) := by
  unfold intOfSizeT
  rw [Nat.mod_eq_of_lt (by omega)]
  rw [if_pos (by omega)]

/-- Helper: the first-fit scan misses a sub-chain with no fitting
hole. -/
theorem scanSubs_eq_none (sz : Nat) (l : List sub_node) (h : noFitSub sz l) :
    scanSubs sz l = none := by
  induction l with
  | nil => rfl
  | cons x rest ih =>
    simp only [scanSubs, if_neg (h x (by simp)), ih (fun y hy => h y (by simp [hy]))]
    rfl

/-- Helper: the first-fit scan misses a main chain with no fitting
hole. -/
theorem scanMains_eq_none (sz : Nat) (ms : List main_node) (h : noFitMain sz ms) :
    scanMains sz ms = none := by
  induction ms with
  | nil => rfl
  | cons m rest ih =>
    simp only [scanMains, scanSubs_eq_none sz m.sub_head (h m (by simp)),
      ih (fun m' hm' => h m' (by simp [hm']))]
    rfl

/-- Helper: the first-fit scan selects the first fitting hole of a
sub-chain and rewrites exactly the split neighbourhood. -/
theorem scanSubs_split (sz : Nat) (pre : List sub_node) (cur : sub_node)
    (post : List sub_node) (hpre : noFitSub sz pre)
    (hhole : cur.type = SegType.HOLE) (hfit : sz ≤ sizeTofInt cur.size) :
    scanSubs sz (pre ++ cur :: post) =
      some (cur.v_addr_start,
        pre ++ (if sz < sizeTofInt cur.size then
          { cur with type := SegType.PROCESS, size := intOfSizeT sz,
                     v_addr_end := procVEnd cur.v_addr_start sz }
            :: { type := SegType.HOLE
                 size := cur.size - intOfSizeT sz
                 p_addr := cur.p_addr + sz
                 v_addr_start := cur.v_addr_start + sz
                 v_addr_end := cur.v_addr_end
                 prev := PrevLink.toPrev }
            :: setHeadPL post
        else { cur with type := SegType.PROCESS } :: post)) := by
  induction pre with
  | nil =>
    simp only [List.nil_append, scanSubs, if_pos (And.intro hhole hfit)]
    by_cases hc : sz < sizeTofInt cur.size
    · rw [if_pos hc, if_pos hc]
    · rw [if_neg hc, if_neg hc]
  | cons y pre' ih =>
    have hy := hpre y (by simp)
    simp only [List.cons_append, scanSubs, if_neg hy, List.append_eq]
    rw [ih (fun z hz => hpre z (by simp [hz]))]
    rfl

/-- Helper: the first-fit scan over the main chain selects the first
main node whose sub-chain scan hits. -/
theorem scanMains_split (sz : Nat) (M1 : List main_node) (m : main_node)
    (M2 : List main_node) (r : Nat × List sub_node) (hM1 : noFitMain sz M1)
    (hm : scanSubs sz m.sub_head = some r) :
    scanMains sz (M1 ++ m :: M2) =
      some (r.1, M1 ++ { m with sub_head := r.2 } :: M2) := by
  induction M1 with
  | nil => simp only [List.nil_append, scanMains, hm]
  | cons y M1' ih =>
    simp only [List.cons_append, scanMains,
      scanSubs_eq_none sz y.sub_head (hM1 y (by simp)), List.append_eq]
    rw [ih (fun z hz => hM1 z (by simp [hz]))]
    rfl

/-- C4: for every positive size `sz`, `mems_malloc` selects the first
hole of size at least `sz` in forward traversal order (main nodes from
the sentinel's `next`, sub-chain forward); if the hole's size equals
`sz` its type flips to `PROCESS` and its `v_addr_start` is returned;
if it exceeds `sz`, the hole shrinks to a `PROCESS` prefix of exactly
`sz` bytes with `v_addr_end = v_addr_start + sz - 1` and a fresh hole
holding the residual bytes is inserted immediately after it, with
physical and virtual starts advanced by `sz` and end unchanged, before
the same `v_addr_start` is returned.  (The size hypotheses mirror
invariant I6: hole sizes are positive `int` values below 2^31.) -/
theorem c4_first_fit (s : State) (sz : Nat) (M1 M2 : List main_node)
    (m : main_node) (pre post : List sub_node) (cur : sub_node)
    (hchain : s.chain = M1 ++ m :: M2)
    (hsubs : m.sub_head = pre ++ cur :: post)
    (hM1 : noFitMain sz M1) (hpre : noFitSub sz pre)
    (hsz : 0 < sz) (hhole : cur.type = SegType.HOLE)
    (hfit : (sz : Int) ≤ cur.size) (hbound : cur.size < 2 ^ 31) :
    mems_malloc s sz =
      (cur.v_addr_start,
       { s with chain := M1 ++
          { m with sub_head := pre ++
            (if (sz : Int) < cur.size then
              { cur with type := SegType.PROCESS, size := (sz : Int),
                         v_addr_end := cur.v_addr_start + sz - 1 }
                :: { type := SegType.HOLE
                     size := cur.size - sz
                     p_addr := cur.p_addr + sz
                     v_addr_start := cur.v_addr_start + sz
                     v_addr_end := cur.v_addr_end
                     prev := PrevLink.toPrev }
                :: setHeadPL post
             else { cur with type := SegType.PROCESS } :: post) } :: M2 }) := by
  have h0 : (0 : Int) ≤ cur.size := le_trans (by exact_mod_cast Nat.zero_le sz) hfit
  have hst : sizeTofInt cur.size = cur.size.toNat := sizeTofInt_of_range cur.size h0 hbound
  have hszlt : sz < 2 ^ 31 := by omega
  have hfit' : sz ≤ sizeTofInt cur.size := by rw [hst]; omega
  have hscan : scanMains sz s.chain =
      some (cur.v_addr_start,
        M1 ++ { m with sub_head := pre ++
          (if sz < sizeTofInt cur.size then
            { cur with type := SegType.PROCESS, size := intOfSizeT sz,
                       v_addr_end := procVEnd cur.v_addr_start sz }
              :: { type := SegType.HOLE
                   size := cur.size - intOfSizeT sz
                   p_addr := cur.p_addr + sz
                   v_addr_start := cur.v_addr_start + sz
                   v_addr_end := cur.v_addr_end
                   prev := PrevLink.toPrev }
              :: setHeadPL post
          else { cur with type := SegType.PROCESS } :: post) } :: M2) := by
    rw [hchain]
    exact scanMains_split sz M1 m M2 _ hM1
      (by rw [hsubs]; exact scanSubs_split sz pre cur post hpre hhole hfit')
  unfold mems_malloc
  rw [if_neg (by omega : ¬ sz = 0)]
  rw [hscan]
  have hiff : (sz < sizeTofInt cur.size) ↔ ((sz : Int) < cur.size) := by rw [hst]; omega
  by_cases hc : (sz : Int) < cur.size
  · rw [if_pos (hiff.mpr hc), if_pos hc, intOfSizeT_of_lt sz hszlt]
    rfl
  · rw [if_neg (fun hlt => hc (hiff.mp hlt)), if_neg hc]

/-- Witness for `c4_first_fit`: in the state after `init;
malloc(1000)` the request `malloc(500)` splits the trailing hole
`H[2000:5095]`, returning handle 2000 and producing
`P[1000:1999] <-> P[2000:2499] <-> H[2500:5095]` (the specification's
scenario 3). -/
theorem c4_witness :
    mems_malloc stA 500 =
      (2000,
       { stA with
          chain :=
            [{ num_of_pages := 1, p_addr := 2 ^ 20, v_addr_start := 1000,
               v_addr_end := 5095,
               sub_head :=
                 [{ type := SegType.PROCESS, size := 1000, p_addr := 2 ^ 20,
                    v_addr_start := 1000, v_addr_end := 1999, prev := PrevLink.self },
                  { type := SegType.PROCESS, size := 500, p_addr := 2 ^ 20 + 1000,
                    v_addr_start := 2000, v_addr_end := 2499, prev := PrevLink.toPrev },
                  { type := SegType.HOLE, size := 2596, p_addr := 2 ^ 20 + 1500,
                    v_addr_start := 2500, v_addr_end := 5095, prev := PrevLink.toPrev }] }] }) :=
  (c4_first_fit stA 500 [] []
      { num_of_pages := 1, p_addr := 2 ^ 20, v_addr_start := 1000, v_addr_end := 5095,
        sub_head := [
          { type := SegType.PROCESS, size := 1000, p_addr := 2 ^ 20,
            v_addr_start := 1000, v_addr_end := 1999, prev := PrevLink.self },
          { type := SegType.HOLE, size := 3096, p_addr := 2 ^ 20 + 1000,
            v_addr_start := 2000, v_addr_end := 5095, prev := PrevLink.toPrev }] }
      [{ type := SegType.PROCESS, size := 1000, p_addr := 2 ^ 20,
         v_addr_start := 1000, v_addr_end := 1999, prev := PrevLink.self }] []
      { type := SegType.HOLE, size := 3096, p_addr := 2 ^ 20 + 1000,
        v_addr_start := 2000, v_addr_end := 5095, prev := PrevLink.toPrev }
      (by decide) (by decide) (by decide) (by decide) (by decide) (by decide)
      (by decide) (by decide)).trans (by decide)


/-- Result of the grow path as claim C5 words it: `ceil(sz/P)` pages
acquired, a new main node one byte past the predecessor's `v_addr_end`
spanning `num_of_pages * P` bytes, a `PROCESS` sub node of length `sz`
at the region's base, a trailing hole exactly when `sz` is smaller
than the region, and the `PROCESS` node's `v_addr_start` returned.
This definition follows the claim's words and is compared against
`mems_malloc` in `c5_grow`. -/
def growSpec (s : State) (sz : Nat) : Nat × State :=
  let n := (sz + PAGE_SIZE - 1) / PAGE_SIZE
  let bytes := n * PAGE_SIZE
  let vs := headPrevVEnd s + 1
  (vs,
   { s with
      chain := s.chain ++
        [{ num_of_pages := n, p_addr := s.physCtr, v_addr_start := vs,
           v_addr_end := headPrevVEnd s + bytes,
           sub_head :=
             { type := SegType.PROCESS, size := (sz : Int), p_addr := s.physCtr,
               v_addr_start := vs, v_addr_end := headPrevVEnd s + sz,
               prev := PrevLink.self } ::
             (if sz < bytes then
               [{ type := SegType.HOLE, size := ((bytes : Nat) : Int) - (sz : Int),
                  p_addr := s.physCtr + sz, v_addr_start := vs + sz,
                  v_addr_end := headPrevVEnd s + bytes, prev := PrevLink.toPrev }]
              else []) }],
      head_prev := HeadPrev.lastNode,
      physCtr := s.physCtr + bytes,
      acquired := s.acquired ++ [(s.physCtr, bytes)],
      start_virtual_address := s.start_virtual_address + sz })

/-- C5: when no existing hole fits a request of `sz` bytes,
`mems_malloc` acquires `ceil(sz / PAGE_SIZE)` pages and behaves
exactly as `growSpec` describes: the new main node's virtual range
begins one byte past the last real main node's `v_addr_end` (or at
1000 when the chain is empty, second conjunct), spans `num_of_pages *
PAGE_SIZE` bytes, carries a `PROCESS` sub node of length `sz` at the
region's base followed by a trailing hole exactly when `sz <
num_of_pages * PAGE_SIZE`, and the `PROCESS` node's `v_addr_start` is
returned.  The `head_prev` hypothesis states that the sentinel's
backward pointer is consistent with the forward chain (true in every
run without `mems_finish`); the size bound mirrors the defined range
of the C arithmetic. -/
theorem c5_grow (s : State) (sz : Nat) (h0 : 0 < sz) (hb : sz < 2 ^ 31)
    (hnofit : noFitMain sz s.chain)
    (hprev : s.head_prev = HeadPrev.lastNode ∨
             (s.head_prev = HeadPrev.sentinel ∧ s.chain = [])) :
    mems_malloc s sz = growSpec s sz ∧
    headPrevVEnd s = ((s.chain.getLast?).map main_node.v_addr_end).getD
        (START_VIRTUAL_ADDRESS - 1) := by
  have hne : ¬ sz = 0 := by omega
  have hsz : sz ≤ (sz + PAGE_SIZE - 1) / PAGE_SIZE * PAGE_SIZE := by
    unfold PAGE_SIZE; omega
  have hscan := scanMains_eq_none sz s.chain hnofit
  have hv : procVEnd (headPrevVEnd s + 1) sz = headPrevVEnd s + sz := by
    unfold procVEnd; omega
  have hve : headPrevVEnd s + 1 + (sz + PAGE_SIZE - 1) / PAGE_SIZE * PAGE_SIZE - 1
      = headPrevVEnd s + (sz + PAGE_SIZE - 1) / PAGE_SIZE * PAGE_SIZE := by omega
  constructor
  · by_cases hc : sz = (sz + PAGE_SIZE - 1) / PAGE_SIZE * PAGE_SIZE
    · obtain hp | ⟨hp, -⟩ := hprev <;>
        simp [mems_malloc, growSpec, hne, hscan, hp, intOfSizeT_of_lt sz hb, hv, hve,
          if_neg (not_not_intro hc),
          if_neg (show ¬ sz < (sz + PAGE_SIZE - 1) / PAGE_SIZE * PAGE_SIZE by omega)]
    · have hlt : sz < (sz + PAGE_SIZE - 1) / PAGE_SIZE * PAGE_SIZE := by omega
      obtain hp | ⟨hp, -⟩ := hprev <;>
      · simp [mems_malloc, growSpec, hne, hscan, hp, intOfSizeT_of_lt sz hb, hv, hve,
          if_pos hc, if_pos hlt]
        unfold ptrAddInt PAGE_SIZE
        omega
  · obtain hp | ⟨hp, hemp⟩ := hprev
    · rw [headPrevVEnd, hp]
    · rw [headPrevVEnd, hp, hemp]
      rfl

/-- Witness for `c5_grow` at the specification's scenario 1: the first
`malloc(1000)` after `init` returns handle 1000 with sub-chain
`P[1000:1999](1000) <-> H[2000:5095](3096)` in a one-page region
`[1000:5095]`. -/
theorem c5_witness :
    mems_malloc mems_init 1000 =
      (1000,
       { chain :=
           [{ num_of_pages := 1, p_addr := 2 ^ 20, v_addr_start := 1000,
              v_addr_end := 5095,
              sub_head :=
                [{ type := SegType.PROCESS, size := 1000, p_addr := 2 ^ 20,
                   v_addr_start := 1000, v_addr_end := 1999, prev := PrevLink.self },
                 { type := SegType.HOLE, size := 3096, p_addr := 2 ^ 20 + 1000,
                   v_addr_start := 2000, v_addr_end := 5095, prev := PrevLink.toPrev }] }],
         head_prev := HeadPrev.lastNode,
         physCtr := 2 ^ 20 + 4096,
         acquired := [(2 ^ 20, 4096)],
         start_virtual_address := 2000 }) :=
  ((c5_grow mems_init 1000 (by decide) (by decide) (by decide)
      (Or.inr ⟨rfl, rfl⟩)).1).trans (by decide)

/- Claims C6, C8, C9: structure of `merge_holes`. -/

/-- Helper: `noAdjH` agrees with `List.Chain'` over `noHolePair`. -/
theorem noAdjH_chain (l : List sub_node) : noAdjH l ↔ List.Chain' noHolePair l := by
  induction l with
  | nil => simp [noAdjH]
  | cons a t ih =>
    cases t with
    | nil => simp [noAdjH]
    | cons b t' =>
      rw [List.chain'_cons, ← ih]
      exact Iff.rfl

/-- Helper: `noAdjH` is stable under reversal (the pair condition is
symmetric). -/
theorem noAdjH_reverse (l : List sub_node) (h : noAdjH l) : noAdjH l.reverse := by
  rw [noAdjH_chain] at h ⊢
  rw [List.chain'_reverse]
  exact List.Chain'.imp (fun a b hab hc => hab ⟨hc.2, hc.1⟩) h

/-- Helper: prepend a node that forms no hole pair with the head. -/
theorem noAdjH_cons (a : sub_node) (l : List sub_node)
    (h1 : ∀ b, l.head? = some b → noHolePair a b) (h2 : noAdjH l) :
    noAdjH (a :: l) := by
  cases l with
  | nil => trivial
  | cons b t => exact ⟨h1 b rfl, h2⟩

/-- Helper: the backward merge of `merge_holes` preserves the
adjacency invariant on the visited prefix, provided the current node's
`prev` pointer is a real predecessor pointer. -/
theorem backMerge_noAdj (acc : List sub_node) (cur : sub_node)
    (hacc : noAdjH acc) (hcp : cur.prev = PrevLink.toPrev) :
    noAdjH (backMerge acc cur) := by
  cases acc with
  | nil => trivial
  | cons prev acc' =>
    simp only [backMerge]
    by_cases hg : prev.type = SegType.HOLE ∧ cur.prev = PrevLink.toPrev
    · rw [if_pos hg]
      cases acc' with
      | nil => trivial
      | cons q acc'' =>
        obtain ⟨hpair, hrest⟩ := hacc
        exact ⟨fun hc => hpair ⟨hc.1, hc.2⟩, hrest⟩
    · rw [if_neg hg]
      have hpn : ¬ prev.type = SegType.HOLE := fun hp => hg ⟨hp, hcp⟩
      exact ⟨fun hc => hpn hc.2, hacc⟩

/-- Helper: the backward merge keeps the shape "later nodes, then the
chain's original first node": the bottom element of the accumulator is
only ever updated in place (its `prev` field untouched), and every
element above it carries a predecessor pointer. -/
theorem backMerge_shape (accT : List sub_node) (last cur : sub_node)
    (hT : ∀ x ∈ accT, x.prev = PrevLink.toPrev) (hcp : cur.prev = PrevLink.toPrev) :
    ∃ accT' last', backMerge (accT ++ [last]) cur = accT' ++ [last'] ∧
      last'.prev = last.prev ∧ (∀ x ∈ accT', x.prev = PrevLink.toPrev) := by
  cases accT with
  | nil =>
    by_cases hg : last.type = SegType.HOLE ∧ cur.prev = PrevLink.toPrev
    · exact ⟨[], { last with size := last.size + cur.size, v_addr_end := cur.v_addr_end },
        by simp [backMerge, if_pos hg], rfl, by simp⟩
    · refine ⟨[cur], last, by simp [backMerge, if_neg hg], rfl, ?_⟩
      intro x hx
      rw [List.mem_singleton] at hx
      rw [hx]
      exact hcp
  | cons p accT' =>
    by_cases hg : p.type = SegType.HOLE ∧ cur.prev = PrevLink.toPrev
    · refine ⟨{ p with size := p.size + cur.size, v_addr_end := cur.v_addr_end } :: accT',
        last, by simp [backMerge, if_pos hg], rfl, ?_⟩
      intro x hx
      rcases List.mem_cons.mp hx with hx | hx
      · rw [hx]
        exact hT p (by simp)
      · exact hT x (by simp [hx])
    · refine ⟨cur :: p :: accT', last, by simp [backMerge, if_neg hg], rfl, ?_⟩
      intro x hx
      rcases List.mem_cons.mp hx with hx | hx
      · rw [hx]; exact hcp
      · exact hT x hx

/-- Helper: unfolding step of the `merge_holes` traversal at the last
node of the chain. -/
theorem mhAux_succ_nil (fuel : Nat) (acc : List sub_node) (fix : Bool) (cur0 : sub_node) :
    mhAux (fuel + 1) acc fix [cur0] =
      (if (if fix then setPL cur0 else cur0).type = SegType.HOLE then
        (backMerge acc (if fix then setPL cur0 else cur0)).reverse
      else mhAux fuel ((if fix then setPL cur0 else cur0) :: acc) false []) := rfl

/-- Helper: unfolding step of the `merge_holes` traversal with a
successor node present. -/
theorem mhAux_succ_cons (fuel : Nat) (acc : List sub_node) (fix : Bool)
    (cur0 nxt : sub_node) (rest' : List sub_node) :
    mhAux (fuel + 1) acc fix (cur0 :: nxt :: rest') =
      (if (if fix then setPL cur0 else cur0).type = SegType.HOLE then
        (if nxt.type = SegType.HOLE then
          mhAux fuel (backMerge acc
            { (if fix then setPL cur0 else cur0) with
               size := (if fix then setPL cur0 else cur0).size + nxt.size,
               v_addr_end := nxt.v_addr_end }) true rest'
         else
          mhAux fuel (backMerge acc (if fix then setPL cur0 else cur0))
            (backOK acc (if fix then setPL cur0 else cur0)) (nxt :: rest'))
      else mhAux fuel ((if fix then setPL cur0 else cur0) :: acc) false (nxt :: rest')) := rfl

/-- Helper: main induction over the `merge_holes` traversal of one
sub-chain.  Starting from an accumulator of shape "later nodes (all
with predecessor pointers), then the chain's first node", the
traversal keeps that shape, keeps the first node's `prev` field, never
creates a hole pair in the accumulator, and ends by reversing it. -/
theorem mhAux_main (fuel : Nat) :
    ∀ (l accT : List sub_node) (last : sub_node) (fix : Bool),
      l.length ≤ fuel →
      noAdjH (accT ++ [last]) →
      (∀ x ∈ accT, x.prev = PrevLink.toPrev) →
      (∀ x ∈ l, x.prev = PrevLink.toPrev) →
      ∃ accT' last',
        mhAux fuel (accT ++ [last]) fix l = (accT' ++ [last']).reverse ∧
        noAdjH (accT' ++ [last']) ∧
        last'.prev = last.prev ∧
        (∀ x ∈ accT', x.prev = PrevLink.toPrev) := by
  induction fuel with
  | zero =>
    intro l accT last fix hlen hacc hT hl
    cases l with
    | nil => exact ⟨accT, last, by simp [mhAux], hacc, rfl, hT⟩
    | cons a t => simp at hlen
  | succ n ih =>
    intro l accT last fix hlen hacc hT hl
    cases l with
    | nil => exact ⟨accT, last, by simp [mhAux], hacc, rfl, hT⟩
    | cons cur0 rest =>
      have hcp : (if fix then setPL cur0 else cur0).prev = PrevLink.toPrev := by
        cases fix
        · simpa using hl cur0 (by simp)
        · simp [setPL]
      cases rest with
      | nil =>
        rw [mhAux_succ_nil]
        set cur := if fix then setPL cur0 else cur0 with hcur
        by_cases ht : cur.type = SegType.HOLE
        · rw [if_pos ht]
          obtain ⟨accT', last', hsh, hprev', hT'⟩ := backMerge_shape accT last cur hT hcp
          have hna : noAdjH (backMerge (accT ++ [last]) cur) :=
            backMerge_noAdj _ _ hacc hcp
          rw [hsh] at hna
          exact ⟨accT', last', by rw [hsh], hna, hprev', hT'⟩
        · rw [if_neg ht]
          have hacc' : noAdjH ((cur :: accT) ++ [last]) := by
            have hshp : (cur :: accT) ++ [last] = cur :: (accT ++ [last]) := by simp
            rw [hshp]
            exact noAdjH_cons cur _ (fun b _ hc => ht hc.1) hacc
          have hT' : ∀ x ∈ cur :: accT, x.prev = PrevLink.toPrev := by
            intro x hx
            rcases List.mem_cons.mp hx with h | h
            · rw [h]; exact hcp
            · exact hT x h
          have hshp : cur :: (accT ++ [last]) = (cur :: accT) ++ [last] := by simp
          rw [hshp]
          exact ih [] (cur :: accT) last false (by simp) hacc' hT' (by simp)
      | cons nxt rest' =>
        rw [mhAux_succ_cons]
        set cur := if fix then setPL cur0 else cur0 with hcur
        by_cases ht : cur.type = SegType.HOLE
        · rw [if_pos ht]
          by_cases hnt : nxt.type = SegType.HOLE
          · rw [if_pos hnt]
            obtain ⟨accT2, last2, hsh, hpr2, hT2⟩ :=
              backMerge_shape accT last
                { cur with size := cur.size + nxt.size, v_addr_end := nxt.v_addr_end }
                hT hcp
            have hna : noAdjH (backMerge (accT ++ [last])
                { cur with size := cur.size + nxt.size, v_addr_end := nxt.v_addr_end }) :=
              backMerge_noAdj _ _ hacc hcp
            rw [hsh] at hna
            rw [hsh]
            obtain ⟨accT', last', h1, h2, h3, h4⟩ :=
              ih rest' accT2 last2 true (by simp at hlen ⊢; omega) hna hT2
                (fun x hx => hl x (by simp [hx]))
            exact ⟨accT', last', h1, h2, h3.trans hpr2, h4⟩
          · rw [if_neg hnt]
            obtain ⟨accT2, last2, hsh, hpr2, hT2⟩ := backMerge_shape accT last cur hT hcp
            have hna : noAdjH (backMerge (accT ++ [last]) cur) :=
              backMerge_noAdj _ _ hacc hcp
            rw [hsh] at hna
            rw [hsh]
            obtain ⟨accT', last', h1, h2, h3, h4⟩ :=
              ih (nxt :: rest') accT2 last2 (backOK (accT ++ [last]) cur)
                (by simp at hlen ⊢; omega) hna hT2 (fun x hx => hl x (by simp [hx]))
            exact ⟨accT', last', h1, h2, h3.trans hpr2, h4⟩
        · rw [if_neg ht]
          have hacc' : noAdjH ((cur :: accT) ++ [last]) := by
            have hshp : (cur :: accT) ++ [last] = cur :: (accT ++ [last]) := by simp
            rw [hshp]
            exact noAdjH_cons cur _ (fun b _ hc => ht hc.1) hacc
          have hT' : ∀ x ∈ cur :: accT, x.prev = PrevLink.toPrev := by
            intro x hx
            rcases List.mem_cons.mp hx with h | h
            · rw [h]; exact hcp
            · exact hT x h
          have hshp : cur :: (accT ++ [last]) = (cur :: accT) ++ [last] := by simp
          rw [hshp]
          exact ih (nxt :: rest') (cur :: accT) last false (by simp at hlen ⊢; omega)
            hacc' hT' (fun x hx => hl x (by simp [hx]))

/-- Helper: a conditional on the literal `false` takes its else
branch. -/
theorem ifFalseBool {a : Sort _} (x y : a) : (if (false : Bool) = true then x else y) = y := rfl

/-- Helper: `merge_holes` on one sub-chain leaves no two adjacent
holes, keeps the first node's `prev` pointer (in particular a self
pointer stays a self pointer), and gives every later node a
predecessor pointer — provided every non-initial input node had a
predecessor pointer, as the code maintains. -/
theorem mergeHolesSubs_inv (l : List sub_node) (htail : tailPL l) :
    noAdjH (mergeHolesSubs l) ∧ (headPL l → headPL (mergeHolesSubs l)) ∧
    tailPL (mergeHolesSubs l) := by
  cases l with
  | nil =>
    refine ⟨trivial, fun _ => ?_, ?_⟩ <;> intro x hx <;>
      simp [mergeHolesSubs, mhAux] at hx
  | cons x t =>
    have htp : ∀ y ∈ t, y.prev = PrevLink.toPrev := htail
    have key : ∃ accT' last', mergeHolesSubs (x :: t) = (accT' ++ [last']).reverse ∧
        noAdjH (accT' ++ [last']) ∧ last'.prev = x.prev ∧
        (∀ z ∈ accT', z.prev = PrevLink.toPrev) := by
      cases t with
      | nil =>
        by_cases hx : x.type = SegType.HOLE
        · refine ⟨[], x, ?_, trivial, rfl, by simp⟩
          show mhAux 1 [] false [x] = _
          rw [mhAux_succ_nil]
          simp only [ifFalseBool]
          rw [if_pos hx]
          rfl
        · refine ⟨[], x, ?_, trivial, rfl, by simp⟩
          show mhAux 1 [] false [x] = _
          rw [mhAux_succ_nil]
          simp only [ifFalseBool]
          rw [if_neg hx]
          rfl
      | cons nxt t' =>
        by_cases hx : x.type = SegType.HOLE
        · by_cases hn : nxt.type = SegType.HOLE
          · obtain ⟨accT', last', h1, h2, h3, h4⟩ :=
              mhAux_main (t'.length + 1) t' []
                { x with size := x.size + nxt.size, v_addr_end := nxt.v_addr_end } true
                (by simp) trivial (by simp) (fun z hz => htp z (by simp [hz]))
            refine ⟨accT', last', ?_, h2, h3, h4⟩
            show mhAux (t'.length + 2) [] false (x :: nxt :: t') = _
            rw [mhAux_succ_cons]
            simp only [ifFalseBool]
            rw [if_pos hx, if_pos hn]
            exact h1
          · obtain ⟨accT', last', h1, h2, h3, h4⟩ :=
              mhAux_main (t'.length + 1) (nxt :: t') [] x false
                (by simp) trivial (by simp) htp
            refine ⟨accT', last', ?_, h2, h3, h4⟩
            show mhAux (t'.length + 2) [] false (x :: nxt :: t') = _
            rw [mhAux_succ_cons]
            simp only [ifFalseBool]
            rw [if_pos hx, if_neg hn]
            exact h1
        · obtain ⟨accT', last', h1, h2, h3, h4⟩ :=
            mhAux_main (t'.length + 1) (nxt :: t') [] x false
              (by simp) trivial (by simp) htp
          refine ⟨accT', last', ?_, h2, h3, h4⟩
          show mhAux (t'.length + 2) [] false (x :: nxt :: t') = _
          rw [mhAux_succ_cons]
          simp only [ifFalseBool]
          rw [if_neg hx]
          exact h1
    obtain ⟨accT', last', heq, hna, hpr, hT⟩ := key
    rw [heq]
    have hrev : (accT' ++ [last']).reverse = last' :: accT'.reverse := by simp
    refine ⟨noAdjH_reverse _ hna, ?_, ?_⟩
    · intro hh
      rw [hrev]
      intro z hz
      simp at hz
      rw [hz, hpr]
      exact hh x (by simp)
    · rw [hrev]
      intro z hz
      exact hT z (List.mem_reverse.mp hz)

/-- Helper: the adjacency invariant restricted to the tail. -/
theorem noAdjH_of_cons (a : sub_node) (t : List sub_node) (h : noAdjH (a :: t)) :
    noAdjH t := by
  cases t with
  | nil => trivial
  | cons b t' => exact h.2

/-- Helper: rewriting the head's `prev` field does not affect the
adjacency invariant. -/
theorem noAdjH_setHeadPL (l : List sub_node) (h : noAdjH l) : noAdjH (setHeadPL l) := by
  cases l with
  | nil => trivial
  | cons a t =>
    cases t with
    | nil => trivial
    | cons b t' => exact ⟨fun hc => h.1 hc, h.2⟩

/-- Helper: membership in `take 1` is being the head. -/
theorem mem_take1_iff (l : List sub_node) (y : sub_node) :
    y ∈ l.take 1 ↔ l.head? = some y := by
  cases l <;> simp [eq_comm]

/-- Helper: the first-fit split preserves the adjacency invariant, the
head's `prev` field, the predecessor-pointer shape, and introduces
only `PROCESS` heads or heads of the original head type. -/
theorem scanSubs_inv (sz : Nat) :
    ∀ (l : List sub_node) (r : Nat × List sub_node), scanSubs sz l = some r →
      (noAdjH l → noAdjH r.2) ∧
      (∀ y, r.2.head? = some y →
        y.type = SegType.PROCESS ∨ ∃ z, l.head? = some z ∧ y.type = z.type) ∧
      (∀ y, r.2.head? = some y → ∃ z, l.head? = some z ∧ y.prev = z.prev) ∧
      ((∀ x ∈ l, x.prev = PrevLink.toPrev) → (∀ x ∈ r.2, x.prev = PrevLink.toPrev)) ∧
      (tailPL l → tailPL r.2) := by
  intro l
  induction l with
  | nil => intro r h; simp [scanSubs] at h
  | cons cur rest ih =>
    intro r h
    by_cases hfit : cur.type = SegType.HOLE ∧ sz ≤ sizeTofInt cur.size
    · rw [show scanSubs sz (cur :: rest) =
            (if sz < sizeTofInt cur.size then
              some (cur.v_addr_start,
                { cur with type := SegType.PROCESS, size := intOfSizeT sz,
                           v_addr_end := procVEnd cur.v_addr_start sz }
                  :: { type := SegType.HOLE
                       size := cur.size - intOfSizeT sz
                       p_addr := cur.p_addr + sz
                       v_addr_start := cur.v_addr_start + sz
                       v_addr_end := cur.v_addr_end
                       prev := PrevLink.toPrev }
                  :: setHeadPL rest)
            else some (cur.v_addr_start, { cur with type := SegType.PROCESS } :: rest))
          from by rw [scanSubs, if_pos hfit]] at h
      by_cases hlt : sz < sizeTofInt cur.size
      · rw [if_pos hlt] at h
        obtain rfl : r = _ := (Option.some.inj h).symm
        refine ⟨?_, ?_, ?_, ?_, ?_⟩
        · intro hna
          refine noAdjH_cons _ _ (fun b _ hc => by simp at hc) ?_
          refine noAdjH_cons _ _ ?_ (noAdjH_setHeadPL rest (noAdjH_of_cons cur rest hna))
          intro b hb hc
          cases rest with
          | nil => simp [setHeadPL] at hb
          | cons w t =>
            simp [setHeadPL, setPL] at hb
            exact hna.1 ⟨hfit.1, by rw [← hb] at hc; exact hc.2⟩
        · intro y hy
          simp at hy
          left
          rw [← hy]
        · intro y hy
          simp at hy
          exact ⟨cur, rfl, by rw [← hy]⟩
        · intro hall x hx
          simp at hx
          rcases hx with hx | hx | hx
          · rw [hx]; exact hall cur (by simp)
          · rw [hx]
          · cases rest with
            | nil => simp [setHeadPL] at hx
            | cons w t =>
              simp [setHeadPL] at hx
              rcases hx with hx | hx
              · rw [hx]; rfl
              · exact hall x (by simp [hx])
        · intro ht x hx
          simp at hx
          rcases hx with hx | hx
          · rw [hx]
          · cases rest with
            | nil => simp [setHeadPL] at hx
            | cons w t =>
              simp [setHeadPL] at hx
              rcases hx with hx | hx
              · rw [hx]; rfl
              · exact ht x (by simp [hx])
      · rw [if_neg hlt] at h
        obtain rfl : r = _ := (Option.some.inj h).symm
        refine ⟨?_, ?_, ?_, ?_, ?_⟩
        · intro hna
          exact noAdjH_cons _ _ (fun b _ hc => by simp at hc)
            (noAdjH_of_cons cur rest hna)
        · intro y hy
          simp at hy
          left
          rw [← hy]
        · intro y hy
          simp at hy
          exact ⟨cur, rfl, by rw [← hy]⟩
        · intro hall x hx
          simp at hx
          rcases hx with hx | hx
          · rw [hx]; exact hall cur (by simp)
          · exact hall x (by simp [hx])
        · intro ht x hx
          exact ht x hx
    · rw [show scanSubs sz (cur :: rest) =
            (scanSubs sz rest).map (fun r => (r.1, cur :: r.2))
          from by rw [scanSubs, if_neg hfit]] at h
      cases hr : scanSubs sz rest with
      | none => rw [hr] at h; simp at h
      | some r' =>
        rw [hr] at h
        simp only [Option.map] at h
        obtain rfl : r = (r'.1, cur :: r'.2) := (Option.some.inj h).symm
        obtain ⟨A', B', C', E', D'⟩ := ih r' hr
        refine ⟨?_, ?_, ?_, ?_, ?_⟩
        · intro hna
          refine noAdjH_cons _ _ ?_ (A' (noAdjH_of_cons cur rest hna))
          intro b hb hc
          rcases B' b hb with hB | ⟨z, hz, htype⟩
          · rw [hB] at hc
            simp at hc
          · cases rest with
            | nil => simp at hz
            | cons w t =>
              simp at hz
              exact hna.1 ⟨hc.1, by rw [← hz] at htype; rw [htype] at hc; exact hc.2⟩
        · intro y hy
          simp at hy
          right
          exact ⟨cur, rfl, by rw [hy]⟩
        · intro y hy
          simp at hy
          exact ⟨cur, rfl, by rw [hy]⟩
        · intro hall x hx
          simp at hx
          rcases hx with hx | hx
          · rw [hx]; exact hall cur (by simp)
          · exact E' (fun z hz => hall z (by simp [hz])) x hx
        · intro ht x hx
          simp at hx
          exact E' (fun z hz => ht z hz) x hx

/-- The structural invariant carried by every reachable state: within
every sub-chain, no two adjacent holes, a self `prev` pointer on the
first node, predecessor `prev` pointers on all later nodes. -/
def InvS (s : State) : Prop :=
  ∀ m ∈ s.chain, noAdjH m.sub_head ∧ headPL m.sub_head ∧ tailPL m.sub_head

/-- Helper: the first-fit scan over the main chain preserves the
structural invariant. -/
theorem scanMains_inv (sz : Nat) :
    ∀ (ms : List main_node) (r : Nat × List main_node), scanMains sz ms = some r →
      (∀ m ∈ ms, noAdjH m.sub_head ∧ headPL m.sub_head ∧ tailPL m.sub_head) →
      ∀ m ∈ r.2, noAdjH m.sub_head ∧ headPL m.sub_head ∧ tailPL m.sub_head := by
  intro ms
  induction ms with
  | nil => intro r h _; simp [scanMains] at h
  | cons m0 ms' ih =>
    intro r h hms
    cases hr : scanSubs sz m0.sub_head with
    | some r' =>
      rw [show scanMains sz (m0 :: ms') = some (r'.1, { m0 with sub_head := r'.2 } :: ms')
          from by rw [scanMains, hr]] at h
      obtain rfl : r = _ := (Option.some.inj h).symm
      intro m hm
      rcases List.mem_cons.mp hm with hm | hm
      · obtain ⟨A, B, C, E, D⟩ := scanSubs_inv sz m0.sub_head r' hr
        obtain ⟨hna, hh, ht⟩ := hms m0 (by simp)
        rw [hm]
        refine ⟨A hna, ?_, D ht⟩
        intro y hy
        rw [mem_take1_iff] at hy
        obtain ⟨z, hz, hpz⟩ := C y hy
        rw [hpz]
        exact hh z ((mem_take1_iff _ _).mpr hz)
      · exact hms m (by simp [hm])
    | none =>
      rw [show scanMains sz (m0 :: ms') = (scanMains sz ms').map (fun r => (r.1, m0 :: r.2))
          from by rw [scanMains, hr]] at h
      cases hrec : scanMains sz ms' with
      | none => rw [hrec] at h; simp at h
      | some rr =>
        rw [hrec] at h
        simp only [Option.map] at h
        obtain rfl : r = (rr.1, m0 :: rr.2) := (Option.some.inj h).symm
        intro m hm
        rcases List.mem_cons.mp hm with hm | hm
        · rw [hm]; exact hms m0 (by simp)
        · exact ih rr hrec (fun m' hm' => hms m' (by simp [hm'])) m hm

/-- Helper: `mems_malloc` preserves the structural invariant. -/
theorem malloc_InvS (s : State) (sz : Nat) (h : InvS s) : InvS (mems_malloc s sz).2 := by
  unfold mems_malloc
  by_cases h0 : sz = 0
  · rw [if_pos h0]; exact h
  rw [if_neg h0]
  cases hscan : scanMains sz s.chain with
  | some r => exact scanMains_inv sz s.chain r hscan h
  | none =>
    cases hp : s.head_prev with
    | detached e => exact h
    | sentinel =>
      intro m hm
      rcases List.mem_append.mp hm with hm | hm
      · exact h m hm
      · rw [List.mem_singleton.mp hm]
        by_cases hc : sz ≠ ((sz + PAGE_SIZE - 1) / PAGE_SIZE) * PAGE_SIZE <;>
          simp [hc, noAdjH, headPL, tailPL, noHolePair, setPL]
    | lastNode =>
      intro m hm
      rcases List.mem_append.mp hm with hm | hm
      · exact h m hm
      · rw [List.mem_singleton.mp hm]
        by_cases hc : sz ≠ ((sz + PAGE_SIZE - 1) / PAGE_SIZE) * PAGE_SIZE <;>
          simp [hc, noAdjH, headPL, tailPL, noHolePair, setPL]

/-- Helper: the free scan only flips one node's `type`, so the list of
`prev` fields of every sub-chain is unchanged. -/
theorem freeScanSubs_prevs (p : Nat) :
    ∀ (l l' : List sub_node), freeScanSubs p l = some l' →
      l'.map sub_node.prev = l.map sub_node.prev := by
  intro l
  induction l with
  | nil => intro l' h; simp [freeScanSubs] at h
  | cons x rest ih =>
    intro l' h
    by_cases hx : x.v_addr_start = p ∧ x.type = SegType.PROCESS
    · rw [show freeScanSubs p (x :: rest) = some ({ x with type := SegType.HOLE } :: rest)
          from by rw [freeScanSubs, if_pos hx]] at h
      obtain rfl : l' = _ := (Option.some.inj h).symm
      simp
    · rw [show freeScanSubs p (x :: rest) = (freeScanSubs p rest).map (fun l => x :: l)
          from by rw [freeScanSubs, if_neg hx]] at h
      cases hr : freeScanSubs p rest with
      | none => rw [hr] at h; simp at h
      | some t' =>
        rw [hr] at h
        simp only [Option.map] at h
        obtain rfl : l' = x :: t' := (Option.some.inj h).symm
        simp [ih t' hr]

/-- Helper: equal `prev`-field lists transfer the pointer-shape
invariants. -/
theorem prevs_transfer (l l' : List sub_node)
    (h : l'.map sub_node.prev = l.map sub_node.prev) :
    (headPL l → headPL l') ∧ (tailPL l → tailPL l') := by
  cases l' with
  | nil => exact ⟨fun _ y hy => by simp at hy, fun _ y hy => by simp at hy⟩
  | cons y t' =>
    cases l with
    | nil => simp at h
    | cons z t =>
      simp only [List.map_cons, List.cons.injEq] at h
      constructor
      · intro hh w hw
        rw [mem_take1_iff] at hw
        simp at hw
        rw [← hw, h.1]
        exact hh z (by simp [mem_take1_iff])
      · intro ht w hw
        have : w.prev ∈ t'.map sub_node.prev := List.mem_map_of_mem sub_node.prev hw
        rw [h.2] at this
        obtain ⟨u, hu, hup⟩ := List.mem_map.mp this
        rw [← hup]
        exact ht u hu

/-- Helper: `mems_free` preserves the structural invariant (the flip
keeps all `prev` fields; `merge_holes` then re-establishes adjacency
and keeps the pointer shape). -/
theorem freeScanMains_InvS (p : Nat) :
    ∀ (ms ms' : List main_node), freeScanMains p ms = some ms' →
      (∀ m ∈ ms, headPL m.sub_head ∧ tailPL m.sub_head) →
      ∀ m ∈ ms', headPL m.sub_head ∧ tailPL m.sub_head := by
  intro ms
  induction ms with
  | nil => intro ms' h _; simp [freeScanMains] at h
  | cons m0 rest ih =>
    intro ms' h hms
    cases hr : freeScanSubs p m0.sub_head with
    | some l' =>
      rw [show freeScanMains p (m0 :: rest) = some ({ m0 with sub_head := l' } :: rest)
          from by rw [freeScanMains, hr]] at h
      obtain rfl : ms' = _ := (Option.some.inj h).symm
      intro m hm
      rcases List.mem_cons.mp hm with hm | hm
      · rw [hm]
        obtain ⟨hh, ht⟩ := hms m0 (by simp)
        obtain ⟨th, tt⟩ := prevs_transfer m0.sub_head l' (freeScanSubs_prevs p m0.sub_head l' hr)
        exact ⟨th hh, tt ht⟩
      · exact hms m (by simp [hm])
    | none =>
      rw [show freeScanMains p (m0 :: rest) = (freeScanMains p rest).map (fun r => m0 :: r)
          from by rw [freeScanMains, hr]] at h
      cases hrec : freeScanMains p rest with
      | none => rw [hrec] at h; simp at h
      | some rr =>
        rw [hrec] at h
        simp only [Option.map] at h
        obtain rfl : ms' = m0 :: rr := (Option.some.inj h).symm
        intro m hm
        rcases List.mem_cons.mp hm with hm | hm
        · rw [hm]; exact hms m0 (by simp)
        · exact ih rr hrec (fun m' hm' => hms m' (by simp [hm'])) m hm

/-- Helper: `mems_free` preserves the structural invariant. -/
theorem free_InvS (s : State) (p : Nat) (h : InvS s) : InvS (mems_free s p) := by
  unfold mems_free
  cases hf : freeScanMains p s.chain with
  | none => exact h
  | some chain' =>
    intro m hm
    simp only [merge_holes, List.mem_map] at hm
    obtain ⟨m', hm', rfl⟩ := hm
    have hpl : headPL m'.sub_head ∧ tailPL m'.sub_head :=
      freeScanMains_InvS p s.chain chain' hf (fun m'' hm'' => ⟨(h m'' hm'').2.1, (h m'' hm'').2.2⟩) m' hm'
    obtain ⟨hna, hh, ht⟩ := mergeHolesSubs_inv m'.sub_head hpl.2
    exact ⟨hna, hh hpl.1, ht⟩

/-- Helper: every reachable state satisfies the structural invariant. -/
theorem reachable_InvS (s : State) (h : Reachable s) : InvS s := by
  induction h with
  | init => intro m hm; simp [mems_init] at hm
  | malloc s' sz _ ih => exact malloc_InvS s' sz ih
  | free s' p _ ih => exact free_InvS s' p ih
  | finish s' _ _ => intro m hm; simp [mems_finish] at hm

/-- C6: after every public operation completes — that is, in every
state reachable from `mems_init` through `mems_malloc`, `mems_free`
and `mems_finish` (`mems_get` and `mems_print_stats` do not modify the
state) — no two adjacent sub nodes in any main node's sub-chain are
both holes. -/
theorem c6_no_adjacent_holes (s : State) (h : Reachable s) : noAdjInv s :=
  fun m hm => (reachable_InvS s h m hm).1

/-- Witness for `c6_no_adjacent_holes` in the state after
`init; malloc(1000); malloc(500); free(1000)` (spec scenario 3, where
the freed block sits next to a `PROCESS` and a later hole). -/
theorem c6_witness : noAdjInv stC :=
  c6_no_adjacent_holes stC
    (Reachable.free stB 1000
      (Reachable.malloc stA 500 (Reachable.malloc mems_init 1000 Reachable.init)))

/-- C9 (amended): in every reachable state each sub-chain is a linear
doubly linked list whose `next` order is null-terminated (the list
encoding), and whose `prev` pointers satisfy: every non-initial node's
`prev` points to its positional predecessor, while the first node's
`prev` points to the node itself — not to null as the original claim
states — because the grow path creates each region's first sub node
with `new_sub_node->prev = new_sub_node` (mems.h:284). -/
theorem c9_prev_links (s : State) (h : Reachable s) : plInv s :=
  fun m hm => ⟨(reachable_InvS s h m hm).2.1, (reachable_InvS s h m hm).2.2⟩

/-- Witness for `c9_prev_links` in the state after `init;
malloc(1000)`: the region's first sub node carries a self pointer, the
second a predecessor pointer. -/
theorem c9_witness : plInv stA :=
  c9_prev_links stA (Reachable.malloc mems_init 1000 Reachable.init)

/-- Every listed node's stored size agrees with its inclusive virtual
range, which is nonempty (invariants I1/I6 for one sub-chain). -/
def sizesOK (l : List sub_node) : Prop :=
  ∀ z ∈ l, z.size = (z.v_addr_end : Int) - (z.v_addr_start : Int) + 1 ∧
    z.v_addr_start ≤ z.v_addr_end

/-- Consecutive listed nodes have contiguous virtual ranges
(invariant I1 for one sub-chain). -/
def contigV : List sub_node → Prop
  | [] => True
  | [_] => True
  | a :: b :: rest => (a.v_addr_end + 1 = b.v_addr_start) ∧ contigV (b :: rest)

/-- The same contiguity read over a reversed prefix. -/
def contigVR : List sub_node → Prop
  | [] => True
  | [_] => True
  | a :: b :: rest => (b.v_addr_end + 1 = a.v_addr_start) ∧ contigVR (b :: rest)

/-- `y` is a hole whose virtual range contains the range of `x`. -/
def covers (y x : sub_node) : Prop :=
  y.type = SegType.HOLE ∧ y.v_addr_start ≤ x.v_addr_start ∧ x.v_addr_end ≤ y.v_addr_end

instance (l : List sub_node) : Decidable (sizesOK l) :=
  inferInstanceAs (Decidable (∀ z ∈ l, z.size = (z.v_addr_end : Int) - (z.v_addr_start : Int) + 1 ∧
    z.v_addr_start ≤ z.v_addr_end))

instance instDecContigV : (l : List sub_node) → Decidable (contigV l)
  | [] => isTrue trivial
  | [_] => isTrue trivial
  | a :: b :: rest =>
    haveI : Decidable (contigV (b :: rest)) := instDecContigV (b :: rest)
    inferInstanceAs (Decidable ((a.v_addr_end + 1 = b.v_addr_start) ∧ contigV (b :: rest)))

/-- Helper: head relation of a contiguous chain. -/
theorem contigV_head_rel (a : sub_node) (t : List sub_node) (h : contigV (a :: t)) :
    ∀ b, t.head? = some b → a.v_addr_end + 1 = b.v_addr_start := by
  cases t with
  | nil => intro b hb; simp at hb
  | cons b' t' =>
    intro b hb
    simp at hb
    rw [← hb]
    exact h.1

/-- Helper: tail of a contiguous chain. -/
theorem contigV_tail (a : sub_node) (t : List sub_node) (h : contigV (a :: t)) : contigV t := by
  cases t with
  | nil => trivial
  | cons b t' => exact h.2

/-- Helper: structural part of the backward merge — sizes stay
range-consistent, the reversed prefix stays contiguous, and the head
of the result ends where the merged-in node ends. -/
theorem backMerge_struct (acc : List sub_node) (cur : sub_node)
    (hsA : sizesOK acc)
    (hsC : cur.size = (cur.v_addr_end : Int) - (cur.v_addr_start : Int) + 1 ∧
      cur.v_addr_start ≤ cur.v_addr_end)
    (hcA : contigVR acc)
    (hj : ∀ a, acc.head? = some a → a.v_addr_end + 1 = cur.v_addr_start) :
    sizesOK (backMerge acc cur) ∧ contigVR (backMerge acc cur) ∧
    (∀ a, (backMerge acc cur).head? = some a → a.v_addr_end = cur.v_addr_end) := by
  cases acc with
  | nil =>
    refine ⟨?_, trivial, ?_⟩
    · intro z hz
      rw [List.mem_singleton.mp hz]
      exact hsC
    · intro a ha
      simp [backMerge] at ha
      rw [← ha]
  | cons prev acc' =>
    have hjp := hj prev rfl
    have hpe := hsA prev (by simp)
    simp only [backMerge]
    by_cases hg : prev.type = SegType.HOLE ∧ cur.prev = PrevLink.toPrev
    · rw [if_pos hg]
      refine ⟨?_, ?_, ?_⟩
      · intro z hz
        rcases List.mem_cons.mp hz with hz | hz
        · rw [hz]
          constructor
          · show prev.size + cur.size = (cur.v_addr_end : Int) - (prev.v_addr_start : Int) + 1
            omega
          · show prev.v_addr_start ≤ cur.v_addr_end
            omega
        · exact hsA z (by simp [hz])
      · cases acc' with
        | nil => trivial
        | cons q acc'' =>
          exact ⟨hcA.1, hcA.2⟩
      · intro a ha
        simp at ha
        rw [← ha]
    · rw [if_neg hg]
      refine ⟨?_, ⟨hjp, hcA⟩, ?_⟩
      · intro z hz
        rcases List.mem_cons.mp hz with hz | hz
        · rw [hz]; exact hsC
        · exact hsA z (by simp [hz])
      · intro a ha
        simp at ha
        rw [← ha]

/-- Helper: coverage part of the backward merge — a hole covering `x`
in the prefix or at the current node survives (possibly enlarged). -/
theorem backMerge_coverage (acc : List sub_node) (cur x : sub_node)
    (hsA : sizesOK acc)
    (hsC : cur.v_addr_start ≤ cur.v_addr_end)
    (hj : ∀ a, acc.head? = some a → a.v_addr_end + 1 = cur.v_addr_start)
    (hcov : (∃ y ∈ acc, covers y x) ∨ covers cur x) :
    ∃ y ∈ backMerge acc cur, covers y x := by
  cases acc with
  | nil =>
    rcases hcov with ⟨y, hy, _⟩ | hcy
    · simp at hy
    · exact ⟨cur, by simp [backMerge], hcy⟩
  | cons prev acc' =>
    have hjp := hj prev rfl
    have hpe := hsA prev (by simp)
    simp only [backMerge]
    by_cases hg : prev.type = SegType.HOLE ∧ cur.prev = PrevLink.toPrev
    · rw [if_pos hg]
      rcases hcov with ⟨y, hy, hcy⟩ | hcy
      · rcases List.mem_cons.mp hy with hy | hy
        · refine ⟨{ prev with size := prev.size + cur.size, v_addr_end := cur.v_addr_end },
            by simp, hg.1, ?_, ?_⟩
          · show prev.v_addr_start ≤ x.v_addr_start
            rw [hy] at hcy
            exact hcy.2.1
          · show x.v_addr_end ≤ cur.v_addr_end
            rw [hy] at hcy
            have := hcy.2.2
            omega
        · exact ⟨y, by simp [hy], hcy⟩
      · refine ⟨{ prev with size := prev.size + cur.size, v_addr_end := cur.v_addr_end },
          by simp, hg.1, ?_, ?_⟩
        · show prev.v_addr_start ≤ x.v_addr_start
          have := hcy.2.1
          omega
        · show x.v_addr_end ≤ cur.v_addr_end
          exact hcy.2.2
    · rw [if_neg hg]
      rcases hcov with ⟨y, hy, hcy⟩ | hcy
      · exact ⟨y, by simp [List.mem_cons.mp hy], hcy⟩
      · exact ⟨cur, by simp, hcy⟩

/-- Helper: applying a pending `prev` write is updating the `prev`
field. -/
theorem ifSetPL_eq (fix : Bool) (n : sub_node) :
    (if fix then setPL n else n) =
      { n with prev := if fix then PrevLink.toPrev else n.prev } := by
  cases fix <;> rfl

/-- Helper: main coverage induction over the `merge_holes` traversal:
a hole covering `x` somewhere in the (contiguous, size-consistent)
chain survives the traversal as a hole still covering `x`, with its
stored size still matching its range. -/
theorem mhAux_cover (x : sub_node) (fuel : Nat) :
    ∀ (l acc : List sub_node) (fix : Bool),
      l.length ≤ fuel →
      sizesOK acc → sizesOK l →
      contigVR acc → contigV l →
      (∀ a, acc.head? = some a → ∀ b, l.head? = some b →
        a.v_addr_end + 1 = b.v_addr_start) →
      ((∃ y ∈ acc, covers y x) ∨ (∃ y ∈ l, covers y x)) →
      ∃ y ∈ mhAux fuel acc fix l, covers y x ∧
        y.size = (y.v_addr_end : Int) - (y.v_addr_start : Int) + 1 := by
  induction fuel with
  | zero =>
    intro l acc fix hlen hsA hsL hcA hcL hj hcov
    cases l with
    | nil =>
      rcases hcov with ⟨y, hy, hcy⟩ | ⟨y, hy, _⟩
      · exact ⟨y, by simp [mhAux, hy], hcy, (hsA y hy).1⟩
      · simp at hy
    | cons a t => simp at hlen
  | succ n ih =>
    intro l acc fix hlen hsA hsL hcA hcL hj hcov
    cases l with
    | nil =>
      rcases hcov with ⟨y, hy, hcy⟩ | ⟨y, hy, _⟩
      · exact ⟨y, by simp [mhAux, hy], hcy, (hsA y hy).1⟩
      · simp at hy
    | cons cur0 rest =>
      have hcur0 := hsL cur0 (by simp)
      cases rest with
      | nil =>
        rw [mhAux_succ_nil, ifSetPL_eq]
        set cur : sub_node :=
          { cur0 with prev := if fix then PrevLink.toPrev else cur0.prev } with hcd
        have ecs : cur.size = cur0.size := by rw [hcd]
        have ecv : cur.v_addr_start = cur0.v_addr_start := by rw [hcd]
        have ece : cur.v_addr_end = cur0.v_addr_end := by rw [hcd]
        have ect : cur.type = cur0.type := by rw [hcd]
        have hsC : cur.size = (cur.v_addr_end : Int) - (cur.v_addr_start : Int) + 1 ∧
            cur.v_addr_start ≤ cur.v_addr_end := by
          rw [ecs, ecv, ece]; exact hcur0
        have hj' : ∀ a, acc.head? = some a → a.v_addr_end + 1 = cur.v_addr_start := by
          intro a ha; rw [ecv]; exact hj a ha cur0 rfl
        have hcov' : (∃ y ∈ acc, covers y x) ∨ covers cur x := by
          rcases hcov with h | ⟨y, hy, hcy⟩
          · exact Or.inl h
          · right
            simp at hy
            rw [hy] at hcy
            exact ⟨by rw [ect]; exact hcy.1, by rw [ecv]; exact hcy.2.1,
              by rw [ece]; exact hcy.2.2⟩
        by_cases ht : cur.type = SegType.HOLE
        · rw [if_pos ht]
          obtain ⟨hs', _, _⟩ := backMerge_struct acc cur hsA hsC hcA hj'
          obtain ⟨y, hy, hcy⟩ := backMerge_coverage acc cur x hsA hsC.2 hj' hcov'
          exact ⟨y, List.mem_reverse.mpr hy, hcy, (hs' y hy).1⟩
        · rw [if_neg ht]
          refine ih [] (cur :: acc) false (by simp) ?_ (fun z hz => by simp at hz)
            ?_ trivial (fun a ha b hb => by simp at hb) ?_
          · intro z hz
            rcases List.mem_cons.mp hz with hz | hz
            · rw [hz]; exact hsC
            · exact hsA z hz
          · cases acc with
            | nil => trivial
            | cons prev acc' => exact ⟨hj' prev rfl, hcA⟩
          · left
            rcases hcov' with ⟨y, hy, hcy⟩ | hcy
            · exact ⟨y, by simp [hy], hcy⟩
            · exact ⟨cur, by simp, hcy⟩
      | cons nxt rest' =>
        rw [mhAux_succ_cons, ifSetPL_eq]
        set cur : sub_node :=
          { cur0 with prev := if fix then PrevLink.toPrev else cur0.prev } with hcd
        have ecs : cur.size = cur0.size := by rw [hcd]
        have ecv : cur.v_addr_start = cur0.v_addr_start := by rw [hcd]
        have ece : cur.v_addr_end = cur0.v_addr_end := by rw [hcd]
        have ect : cur.type = cur0.type := by rw [hcd]
        have hnxt := hsL nxt (by simp)
        have h1 : cur0.v_addr_end + 1 = nxt.v_addr_start := hcL.1
        have hsC : cur.size = (cur.v_addr_end : Int) - (cur.v_addr_start : Int) + 1 ∧
            cur.v_addr_start ≤ cur.v_addr_end := by
          rw [ecs, ecv, ece]; exact hcur0
        have hj' : ∀ a, acc.head? = some a → a.v_addr_end + 1 = cur.v_addr_start := by
          intro a ha; rw [ecv]; exact hj a ha cur0 rfl
        by_cases ht : cur.type = SegType.HOLE
        · rw [if_pos ht]
          by_cases hn : nxt.type = SegType.HOLE
          · rw [if_pos hn]
            set cur2 : sub_node :=
              { cur with size := cur.size + nxt.size, v_addr_end := nxt.v_addr_end } with hc2
            have e2s : cur2.size = cur.size + nxt.size := by rw [hc2]
            have e2v : cur2.v_addr_start = cur.v_addr_start := by rw [hc2]
            have e2e : cur2.v_addr_end = nxt.v_addr_end := by rw [hc2]
            have e2t : cur2.type = cur.type := by rw [hc2]
            have hsC2 : cur2.size = (cur2.v_addr_end : Int) - (cur2.v_addr_start : Int) + 1 ∧
                cur2.v_addr_start ≤ cur2.v_addr_end := by
              rw [e2s, e2v, e2e, ecs, ecv]
              have q1 := hcur0.1
              have q2 := hcur0.2
              have q3 := hnxt.1
              have q4 := hnxt.2
              omega
            have hj2 : ∀ a, acc.head? = some a → a.v_addr_end + 1 = cur2.v_addr_start := by
              intro a ha; rw [e2v]; exact hj' a ha
            have hcovIn : ((∃ y ∈ acc, covers y x) ∨ covers cur2 x) ∨
                (∃ y ∈ rest', covers y x) := by
              rcases hcov with h | ⟨y, hy, hcy⟩
              · exact Or.inl (Or.inl h)
              · rcases List.mem_cons.mp hy with hy | hy
                · left; right
                  rw [hy] at hcy
                  refine ⟨by rw [e2t]; exact ht, ?_, ?_⟩
                  · rw [e2v, ecv]; exact hcy.2.1
                  · rw [e2e]
                    have := hcy.2.2
                    have q4 := hnxt.2
                    omega
                rcases List.mem_cons.mp hy with hy | hy
                · left; right
                  rw [hy] at hcy
                  refine ⟨by rw [e2t]; exact ht, ?_, ?_⟩
                  · rw [e2v, ecv]
                    have := hcy.2.1
                    have q2 := hcur0.2
                    omega
                  · rw [e2e]; exact hcy.2.2
                · exact Or.inr ⟨y, hy, hcy⟩
            obtain ⟨hs', hc', hh'⟩ := backMerge_struct acc cur2 hsA hsC2 hcA hj2
            refine ih rest' (backMerge acc cur2) true (by simp at hlen ⊢; omega)
              hs' (fun z hz => hsL z (by simp [hz])) hc'
              (contigV_tail nxt rest' hcL.2) ?_ ?_
            · intro a ha b hb
              rw [hh' a ha, e2e]
              exact contigV_head_rel nxt rest' hcL.2 b hb
            · rcases hcovIn with h | h
              · exact Or.inl (backMerge_coverage acc cur2 x hsA hsC2.2 hj2 h)
              · exact Or.inr h
          · rw [if_neg hn]
            obtain ⟨hs', hc', hh'⟩ := backMerge_struct acc cur hsA hsC hcA hj'
            refine ih (nxt :: rest') (backMerge acc cur) (backOK acc cur)
              (by simp at hlen ⊢; omega) hs' (fun z hz => hsL z (by simp [hz])) hc'
              hcL.2 ?_ ?_
            · intro a ha b hb
              simp at hb
              rw [hh' a ha, ece, ← hb]
              exact h1
            · rcases hcov with h | ⟨y, hy, hcy⟩
              · exact Or.inl (backMerge_coverage acc cur x hsA hsC.2 hj' (Or.inl h))
              · rcases List.mem_cons.mp hy with hy | hy
                · rw [hy] at hcy
                  refine Or.inl (backMerge_coverage acc cur x hsA hsC.2 hj' (Or.inr ?_))
                  exact ⟨by rw [ect]; exact hcy.1, by rw [ecv]; exact hcy.2.1,
                    by rw [ece]; exact hcy.2.2⟩
                · exact Or.inr ⟨y, hy, hcy⟩
        · rw [if_neg ht]
          refine ih (nxt :: rest') (cur :: acc) false (by simp at hlen ⊢; omega)
            ?_ (fun z hz => hsL z (by simp [hz])) ?_ hcL.2 ?_ ?_
          · intro z hz
            rcases List.mem_cons.mp hz with hz | hz
            · rw [hz]; exact hsC
            · exact hsA z hz
          · cases acc with
            | nil => trivial
            | cons prev acc' => exact ⟨hj' prev rfl, hcA⟩
          · intro a ha b hb
            simp at ha hb
            rw [← ha, ece, ← hb]
            exact h1
          · rcases hcov with ⟨y, hy, hcy⟩ | ⟨y, hy, hcy⟩
            · exact Or.inl ⟨y, by simp [hy], hcy⟩
            · rcases List.mem_cons.mp hy with hy | hy
              · rw [hy] at hcy
                refine Or.inl ⟨cur, by simp, ?_⟩
                exact ⟨by rw [ect]; exact hcy.1, by rw [ecv]; exact hcy.2.1,
                  by rw [ece]; exact hcy.2.2⟩
              · exact Or.inr ⟨y, hy, hcy⟩

/-- Helper: a hole in a size-consistent contiguous sub-chain survives
`merge_holes` as a hole covering the same range, with consistent size. -/
theorem mergeHolesSubs_cover (l : List sub_node) (x : sub_node)
    (hs : sizesOK l) (hc : contigV l)
    (hx : x ∈ l) (hxh : x.type = SegType.HOLE) :
    ∃ y ∈ mergeHolesSubs l, covers y x ∧
      y.size = (y.v_addr_end : Int) - (y.v_addr_start : Int) + 1 := by
  unfold mergeHolesSubs
  exact mhAux_cover x l.length l [] false le_rfl (fun z hz => by simp at hz) hs
    trivial hc (fun a ha => by simp at ha)
    (Or.inr ⟨x, hx, hxh, le_refl _, le_refl _⟩)

/-- Helper: flipping one node's type keeps sizes range-consistent. -/
theorem sizesOK_flip (pre post : List sub_node) (x : sub_node)
    (h : sizesOK (pre ++ x :: post)) :
    sizesOK (pre ++ { x with type := SegType.HOLE } :: post) := by
  intro z hz
  simp only [List.mem_append, List.mem_cons] at hz
  rcases hz with hz | hz | hz
  · exact h z (by simp [hz])
  · rw [hz]
    exact h x (by simp)
  · exact h z (by simp [hz])

/-- Helper: flipping one node's type keeps the chain contiguous. -/
theorem contigV_flip (pre post : List sub_node) (x : sub_node)
    (h : contigV (pre ++ x :: post)) :
    contigV (pre ++ { x with type := SegType.HOLE } :: post) := by
  induction pre with
  | nil =>
    cases post with
    | nil => trivial
    | cons b t => exact ⟨h.1, h.2⟩
  | cons a pre' ih =>
    cases pre' with
    | nil => exact ⟨h.1, ih h.2⟩
    | cons b pre'' => exact ⟨h.1, ih h.2⟩

/-- Helper: the free scan finds the first matching node and flips it. -/
theorem freeScanSubs_split (p : Nat) (pre : List sub_node) (x : sub_node)
    (post : List sub_node)
    (hpre : ∀ z ∈ pre, ¬(z.v_addr_start = p ∧ z.type = SegType.PROCESS))
    (hx : x.v_addr_start = p ∧ x.type = SegType.PROCESS) :
    freeScanSubs p (pre ++ x :: post) =
      some (pre ++ { x with type := SegType.HOLE } :: post) := by
  induction pre with
  | nil => simp only [List.nil_append, freeScanSubs, if_pos hx]
  | cons a pre' ih =>
    have ha := hpre a (by simp)
    simp only [List.cons_append, freeScanSubs, if_neg ha, List.append_eq,
      ih (fun z hz => hpre z (by simp [hz]))]
    rfl

/-- Helper: the free scan over the main chain finds the first main
node whose sub-chain matches. -/
theorem freeScanMains_split (p : Nat) (M1 : List main_node) (m : main_node)
    (M2 : List main_node) (l : List sub_node)
    (hM1 : ∀ m' ∈ M1, ∀ z ∈ m'.sub_head,
      ¬(z.v_addr_start = p ∧ z.type = SegType.PROCESS))
    (hm : freeScanSubs p m.sub_head = some l) :
    freeScanMains p (M1 ++ m :: M2) =
      some (M1 ++ { m with sub_head := l } :: M2) := by
  induction M1 with
  | nil =>
    simp only [List.nil_append, freeScanMains, hm]
  | cons a M1' ih =>
    simp only [List.cons_append, freeScanMains, List.append_eq,
      freeScanSubs_eq_none p a.sub_head (hM1 a (by simp)),
      ih (fun m' hm' => hM1 m' (by simp [hm']))]
    rfl

/-- C8 (amended): freeing the handle `h` of a `PROCESS` segment of a
size-consistent, virtually contiguous sub-chain leaves, in that main
node, a `HOLE` sub-node whose virtual range contains the freed
segment's range (so it starts at or before `h`) and whose recorded
size is at least the freed segment's size.  (The hole's `v_addr_start`
equals `h` only when no backward coalescing happened; `merge_holes`
may absorb the freed node into a preceding hole, as the witness
shows.) -/
theorem c8_free_covering_hole (s : State) (h : Nat)
    (M1 M2 : List main_node) (m : main_node)
    (pre post : List sub_node) (x : sub_node)
    (hchain : s.chain = M1 ++ m :: M2)
    (hsubs : m.sub_head = pre ++ x :: post)
    (hM1 : ∀ m' ∈ M1, ∀ z ∈ m'.sub_head,
      ¬(z.v_addr_start = h ∧ z.type = SegType.PROCESS))
    (hpre : ∀ z ∈ pre, ¬(z.v_addr_start = h ∧ z.type = SegType.PROCESS))
    (hxs : x.v_addr_start = h) (hxt : x.type = SegType.PROCESS)
    (hsz : sizesOK m.sub_head) (hcv : contigV m.sub_head) :
    ∃ m' ∈ (mems_free s h).chain, ∃ y ∈ m'.sub_head,
      y.type = SegType.HOLE ∧ y.v_addr_start ≤ h ∧
      x.v_addr_end ≤ y.v_addr_end ∧ x.size ≤ y.size := by
  have hscan1 : freeScanSubs h m.sub_head =
      some (pre ++ { x with type := SegType.HOLE } :: post) := by
    rw [hsubs]
    exact freeScanSubs_split h pre x post hpre ⟨hxs, hxt⟩
  have hscan : freeScanMains h s.chain =
      some (M1 ++ { m with sub_head :=
        pre ++ { x with type := SegType.HOLE } :: post } :: M2) := by
    rw [hchain]
    exact freeScanMains_split h M1 m M2 _ hM1 hscan1
  unfold mems_free
  rw [hscan]
  rw [hsubs] at hsz hcv
  have hszL : sizesOK (pre ++ { x with type := SegType.HOLE } :: post) :=
    sizesOK_flip pre post x hsz
  have hcvL : contigV (pre ++ { x with type := SegType.HOLE } :: post) :=
    contigV_flip pre post x hcv
  obtain ⟨y, hy, hcy, hys⟩ := mergeHolesSubs_cover
    (pre ++ { x with type := SegType.HOLE } :: post)
    ({ x with type := SegType.HOLE }) hszL hcvL (by simp) rfl
  refine ⟨{ m with sub_head :=
      mergeHolesSubs (pre ++ { x with type := SegType.HOLE } :: post) }, ?_, ?_⟩
  · exact List.mem_map_of_mem
      (fun mm => { mm with sub_head := mergeHolesSubs mm.sub_head })
      (show ({ m with sub_head :=
          pre ++ { x with type := SegType.HOLE } :: post } : main_node) ∈
        M1 ++ { m with sub_head :=
          pre ++ { x with type := SegType.HOLE } :: post } :: M2 by simp)
  · refine ⟨y, hy, hcy.1, ?_, ?_, ?_⟩
    · rw [← hxs]
      exact hcy.2.1
    · exact hcy.2.2
    · have h1 := (hsz x (by simp)).1
      have h2 : y.v_addr_start ≤ x.v_addr_start := hcy.2.1
      have h3 : x.v_addr_end ≤ y.v_addr_end := hcy.2.2
      omega

/-- C8 witness: in the state `init; malloc(1000); malloc(500);
free(1000)`, freeing the second handle (2000) leaves a hole covering
[2000, 2499] with size ≥ 500 — here the single coalesced hole
H[1000:5095]. -/
theorem c8_witness :
    ∃ m' ∈ (mems_free stC 2000).chain, ∃ y ∈ m'.sub_head,
      y.type = SegType.HOLE ∧ y.v_addr_start ≤ 2000 ∧
        2499 ≤ y.v_addr_end ∧ (500 : Int) ≤ y.size :=
  c8_free_covering_hole stC 2000 [] []
    ⟨1, 1048576, 1000, 5095,
      [⟨SegType.HOLE, 1000, 1048576, 1000, 1999, PrevLink.self⟩,
       ⟨SegType.PROCESS, 500, 1049576, 2000, 2499, PrevLink.toPrev⟩,
       ⟨SegType.HOLE, 2596, 1050076, 2500, 5095, PrevLink.toPrev⟩]⟩
    [⟨SegType.HOLE, 1000, 1048576, 1000, 1999, PrevLink.self⟩]
    [⟨SegType.HOLE, 2596, 1050076, 2500, 5095, PrevLink.toPrev⟩]
    ⟨SegType.PROCESS, 500, 1049576, 2000, 2499, PrevLink.toPrev⟩
    (by decide) rfl (by simp) (by decide) rfl rfl (by decide) (by decide)
